import Mathlib

/-!
Verification development for the classyfd library (a Python object-oriented
layer over filesystem entities).  The library runs on a POSIX platform
(`os.name == "posix"`); all platform-dependent functions below embed the
POSIX branch of the source.  Paths are strings; the core path algebra is
modelled on `List Char`, with `String` wrappers at the entity boundary.
-/

set_option autoImplicit false

/-! ## Core path-string functions (posixpath / re, as called by utils.py) -/

/-- Split a character list on `'/'`, mirroring Python's `str.split("/")`.
The result is always non-empty; separators are not kept. -/
def splitSlash : List Char → List (List Char)
  | [] => [[]]
  | c :: rest =>
    if c = '/' then [] :: splitSlash rest
    else
      match splitSlash rest with
      | [] => [[c]]
      | g :: gs => (c :: g) :: gs

/-- Join component lists with single `'/'` separators, mirroring
`"/".join(comps)`. -/
def joinSlash : List (List Char) → List Char
  | [] => []
  | [c] => c
  | c :: cs => c ++ '/' :: joinSlash cs

/-- Number of leading slashes as `posixpath.normpath` counts them: `2` for a
path starting with exactly two slashes, `1` for one or three-plus, else `0`. -/
def initialSlashes : List Char → Nat
  | '/' :: '/' :: '/' :: _ => 1
  | '/' :: '/' :: _ => 2
  | '/' :: _ => 1
  | _ => 0

/-- One step of `posixpath.normpath`'s component loop: skip empty and `"."`
components, pop on `".."` when a real component can be popped, keep `".."`
otherwise (at the front of a relative path or after another `".."`). -/
def normStep (isAbs : Bool) (acc : List (List Char)) (comp : List Char) :
    List (List Char) :=
  if comp = [] ∨ comp = ['.'] then acc
  else if comp ≠ ['.', '.'] ∨ (¬ isAbs = true ∧ acc = []) ∨
      acc.getLast? = some ['.', '.'] then acc ++ [comp]
  else acc.dropLast

/-- The component loop of `posixpath.normpath`. -/
def reduceComps (isAbs : Bool) (comps : List (List Char)) : List (List Char) :=
  comps.foldl (normStep isAbs) []

/-- Embedding of `posixpath.normpath` on character lists (the lexical normalizer used on
POSIX by `os.path.normpath`, `os.path.abspath`). -/
def normpathL (s : List Char) : List Char :=
  if s = [] then ['.']
  else
    let k := initialSlashes s
    let comps := reduceComps (k != 0) (splitSlash s)
    let out := List.replicate k '/' ++ joinSlash comps
    if out = [] then ['.'] else out

/-- Scanner state machine for `re.sub(r"/{1,}", "/", s)`: the flag records
whether the previous character was a slash (in which case further slashes
of the same run are dropped). -/
def collapseAux : Bool → List Char → List Char
  | _, [] => []
  | prev, c :: rest =>
    if c = '/' then
      if prev then collapseAux true rest else '/' :: collapseAux true rest
    else c :: collapseAux false rest

/-- Embedding of `re.sub(r"/{1,}", "/", s)`: collapse every run of forward
slashes into a single one. -/
def collapseSlash (s : List Char) : List Char := collapseAux false s

/-- The character sequence matched by the regular expression `\x7b1,\x7d`
written in utils.py as the pattern `r"\{1,}"`: the escaped brace makes it a
literal four-character text, not a quantifier over backslashes. -/
def braceSeq : List Char := ['\x7b', '1', ',', '\x7d']

/-- Whether `s` begins with the literal text matched by the backslash
regular expression of utils.py. -/
def startsWithBrace (s : List Char) : Bool := s.take 4 = braceSeq

/-- Whether the literal text `\x7b1,\x7d` occurs anywhere in `s`. -/
def hasBraceSeq : List Char → Bool
  | [] => false
  | c :: t => startsWithBrace (c :: t) || hasBraceSeq t

/-- Embedding of `re.sub(r"\{1,}", "/", s)`: the left-to-right
non-overlapping scan of Python's `re.sub`, replacing each occurrence of the
literal text `\x7b1,\x7d` with one forward slash. -/
def braceSub : List Char → List Char
  | '\x7b' :: '1' :: ',' :: '\x7d' :: rest => '/' :: braceSub rest
  | c :: rest => c :: braceSub rest
  | [] => []

/-- Embedding of `utils.normalize_path` on POSIX: `os.path.normpath`, then the
forward-slash collapse, then the (mis-written) backslash substitution. -/
def normalize_path (path : String) : String :=
  String.mk (braceSub (collapseSlash (normpathL path.data)))

/-- Embedding of `posixpath.isabs`. -/
def isAbsL (p : List Char) : Bool :=
  match p with
  | '/' :: _ => true
  | _ => false

/-- Embedding of `posixpath.join` restricted to two arguments, as used by
`os.path.join(directory, name)` and inside `abspath`. -/
def osJoinL (a b : List Char) : List Char :=
  if isAbsL b then b
  else if a = [] ∨ a.getLast? = some '/' then a ++ b
  else a ++ '/' :: b

/-- Embedding of `posixpath.abspath` with an explicit current working directory:
join onto `cwd` when relative, then lexically normalize. -/
def abspathL (cwd p : List Char) : List Char :=
  normpathL (if isAbsL p then p else osJoinL cwd p)

/-- String wrapper for `os.path.join`. -/
def osJoin (a b : String) : String := String.mk (osJoinL a.data b.data)

/-- String wrapper for `os.path.abspath`. -/
def abspathStr (cwd p : String) : String := String.mk (abspathL cwd.data p.data)

/-! ## pathlib.PurePosixPath name / parent (used by File.name, File.parent) -/

/-- The components `pathlib` keeps: empty and `"."` parts are dropped,
`".."` is kept. -/
def plibCompsL (s : List Char) : List (List Char) :=
  (splitSlash s).filter (fun c => ¬(c = [] ∨ c = ['.']))

/-- Embedding of `str(pathlib.PurePosixPath(s).name)`: the last component, or empty when
there is none (for example at the root). -/
def plibNameL (s : List Char) : List Char :=
  ((plibCompsL s).getLast?).getD []

/-- Embedding of `str(pathlib.PurePosixPath(s).parent)`: drop the last component; a path
with no components is its own parent, and a bare relative name's parent is
`"."`. -/
def plibParentL (s : List Char) : List Char :=
  let k := initialSlashes s
  let cs := (plibCompsL s).dropLast
  if cs = [] then (if k = 0 then ['.'] else List.replicate k '/')
  else List.replicate k '/' ++ joinSlash cs

/-! ## Filesystem model

The library delegates all filesystem effects to the platform.  We model a
symlink-free POSIX filesystem as a finite association of canonical absolute
paths (as produced by `os.path.abspath`, i.e. lexically resolved against the
current working directory) to entry kinds.  `os.path.isfile` tests
`S_ISREG` and `os.path.isdir` tests `S_ISDIR`; an entry such as a FIFO,
socket or device node exists while being neither, hence the third kind. -/

/-- Kind of an existing filesystem entry as the three `os.path` predicates
distinguish them. -/
inductive EntryKind where
  | file
  | dir
  | other
deriving DecidableEq

/-- A filesystem state: canonical absolute path keys with entry kinds. -/
abbrev FS := List (String × EntryKind)

/-- Errors the modelled operations can raise (library exceptions and the
propagated platform `OSError` subclasses). -/
inductive FSError where
  | invalidFileValue
  | invalidDirectoryValue
  | isADirectory
  | notADirectory
  | fileExists
  | noSuchFileOrDirectory
  | directoryNotEmpty
  | invalidArgument
deriving DecidableEq

/-- The canonical key a path string denotes for the kernel: resolution of a
(possibly relative) path against the current working directory, exactly
`os.path.abspath`. -/
def fsKey (cwd p : String) : String := abspathStr cwd p

/-- Embedding of `os.path.exists`: the empty path never exists (`stat("")` is `ENOENT`). -/
def osExists (fs : FS) (cwd p : String) : Bool :=
  if p = "" then false else (fs.lookup (fsKey cwd p)).isSome

/-- Embedding of `os.path.isfile`. -/
def osIsfile (fs : FS) (cwd p : String) : Bool :=
  if p = "" then false
  else
    match fs.lookup (fsKey cwd p) with
    | some EntryKind.file => true
    | _ => false

/-- Embedding of `os.path.isdir`. -/
def osIsdir (fs : FS) (cwd p : String) : Bool :=
  if p = "" then false
  else
    match fs.lookup (fsKey cwd p) with
    | some EntryKind.dir => true
    | _ => false

/-- Rekey one stored path when the entry at `ks` (with its subtree) moves to
`kd`. -/
def rekey (ks kd p : String) : String :=
  if p = ks then kd
  else if (ks ++ "/").isPrefixOf p then kd ++ (p.drop ks.length)
  else p

/-- Move the entry at key `ks` (and, for a directory, its subtree) onto key
`kd`, unlinking whatever was at `kd`. -/
def fsMove (fs : FS) (ks kd : String) : FS :=
  (fs.filter (fun e => ¬(e.1 = kd ∨ (kd ++ "/").isPrefixOf e.1))).map
    (fun e => (rekey ks kd e.1, e.2))

/-- POSIX `rename(2)`, the system call behind both `os.rename` and
`os.replace` on POSIX: atomically moves the source over the destination,
failing when the source is missing, when exactly one side is a directory,
when the destination is a non-empty directory, or when the destination lies
inside the source. -/
def osReplace (fs : FS) (cwd src dst : String) : Except FSError FS :=
  if src = "" ∨ dst = "" then Except.error FSError.noSuchFileOrDirectory
  else
    let ks := fsKey cwd src
    let kd := fsKey cwd dst
    match fs.lookup ks with
    | none => Except.error FSError.noSuchFileOrDirectory
    | some k =>
      if ks = kd then Except.ok fs
      else
        match fs.lookup kd with
        | none =>
          if k = EntryKind.dir ∧ (ks ++ "/").isPrefixOf kd then
            Except.error FSError.invalidArgument
          else Except.ok (fsMove fs ks kd)
        | some kdk =>
          if k = EntryKind.dir ∧ kdk ≠ EntryKind.dir then
            Except.error FSError.notADirectory
          else if k ≠ EntryKind.dir ∧ kdk = EntryKind.dir then
            Except.error FSError.isADirectory
          else if k = EntryKind.dir ∧ kdk = EntryKind.dir then
            if fs.any (fun e => (kd ++ "/").isPrefixOf e.1) then
              Except.error FSError.directoryNotEmpty
            else if (ks ++ "/").isPrefixOf kd then
              Except.error FSError.invalidArgument
            else Except.ok (fsMove fs ks kd)
          else Except.ok (fsMove fs ks kd)

/-- Embedding of `os.rename`: on POSIX the same `rename(2)` call as `os.replace`. -/
def osRename (fs : FS) (cwd src dst : String) : Except FSError FS :=
  osReplace fs cwd src dst

/-- Embedding of `os.remove`: unlink a non-directory entry. -/
def osRemove (fs : FS) (cwd p : String) : Except FSError FS :=
  if p = "" then Except.error FSError.noSuchFileOrDirectory
  else
    let k := fsKey cwd p
    match fs.lookup k with
    | none => Except.error FSError.noSuchFileOrDirectory
    | some EntryKind.dir => Except.error FSError.isADirectory
    | some _ => Except.ok (fs.filter (fun e => ¬ e.1 = k))

/-- Embedding of `os.rmdir`: remove an empty directory. -/
def osRmdir (fs : FS) (cwd p : String) : Except FSError FS :=
  if p = "" then Except.error FSError.noSuchFileOrDirectory
  else
    let k := fsKey cwd p
    match fs.lookup k with
    | none => Except.error FSError.noSuchFileOrDirectory
    | some EntryKind.dir =>
      if fs.any (fun e => (k ++ "/").isPrefixOf e.1) then
        Except.error FSError.directoryNotEmpty
      else Except.ok (fs.filter (fun e => ¬ e.1 = k))
    | some _ => Except.error FSError.notADirectory

/-- Embedding of `shutil.rmtree`: remove a directory and its subtree. -/
def osRmtree (fs : FS) (cwd p : String) : Except FSError FS :=
  if p = "" then Except.error FSError.noSuchFileOrDirectory
  else
    let k := fsKey cwd p
    match fs.lookup k with
    | none => Except.error FSError.noSuchFileOrDirectory
    | some EntryKind.dir =>
      Except.ok (fs.filter (fun e => ¬(e.1 = k ∨ (k ++ "/").isPrefixOf e.1)))
    | some _ => Except.error FSError.notADirectory

/-! ## The File entity (classyfd/file/file.py) -/

/-- The state of a classyfd `File` object: its stored path attribute. -/
structure File where
  path : String
deriving DecidableEq

/-- Embedding of `File.__init__`: reject an empty path with `InvalidFileValueError`,
reject a path that exists and is a directory with `IsADirectoryError`,
otherwise store `utils.normalize_path(os.path.abspath(path))`. -/
def File.init (fs : FS) (cwd path : String) : Except FSError File :=
  if path = "" then Except.error FSError.invalidFileValue
  else if osExists fs cwd path && osIsdir fs cwd path then
    Except.error FSError.isADirectory
  else Except.ok ⟨normalize_path (abspathStr cwd path)⟩

/-- The `File.path` property setter: reject a path that exists and is a
directory, otherwise store `utils.normalize_path(os.path.abspath(new_path))`.
Returns the updated entity and the raised exception, if any. -/
def File.setPath (fs : FS) (cwd : String) (f : File) (newPath : String) :
    File × Option FSError :=
  if osExists fs cwd newPath && osIsdir fs cwd newPath then
    (f, some FSError.isADirectory)
  else (⟨normalize_path (abspathStr cwd newPath)⟩, none)

/-- Embedding of `File.name`: `pathlib.Path(self.path).name`. -/
def File.name (f : File) : String := String.mk (plibNameL f.path.data)

/-- Embedding of `File.parent`: `str(pathlib.Path(self.path).parent)`. -/
def File.parent (f : File) : String := String.mk (plibParentL f.path.data)

/-- Python truthiness of the optional new-name argument: `None` and the
empty string are falsy. -/
def truthy : Option String → Bool
  | none => false
  | some s => s ≠ ""

/-- Whether a proposed name contains one of the rejected separators,
`any(c in new_file_name for c in ("\\", "/"))`. -/
def hasSlash (s : String) : Bool :=
  s.data.any (fun c => c = '/' ∨ c = '\\')

/-- Outcome of a mutating entity operation: the filesystem after the call,
the entity state after the call, and the exception raised, if any.  A raised
exception does not undo filesystem changes already performed. -/
structure OpResult (ε : Type) where
  fs : FS
  self : ε
  err : Option FSError
deriving DecidableEq

/-- Embedding of `File._execute_rename`: validate the new name, compute the destination
by joining, fail with `FileExistsError` on an occupied destination without
replacement, call `os.replace` on an occupied destination with replacement,
call `os.rename` otherwise, and finally run the destination through the
`path` setter. -/
def File.executeRename (fs : FS) (cwd : String) (f : File) (directory : String)
    (newFileName : Option String) (replaceExistingFile : Bool) :
    OpResult File :=
  if truthy newFileName && hasSlash (newFileName.getD "") then
    ⟨fs, f, some FSError.invalidFileValue⟩
  else
    let newFilePath :=
      if truthy newFileName then osJoin directory (newFileName.getD "")
      else osJoin directory f.name
    let fileAlreadyExists := osExists fs cwd newFilePath
    if fileAlreadyExists && !replaceExistingFile then
      ⟨fs, f, some FSError.fileExists⟩
    else if fileAlreadyExists && replaceExistingFile then
      match osReplace fs cwd f.path newFilePath with
      | Except.error e => ⟨fs, f, some e⟩
      | Except.ok fs' =>
        let (f', e) := File.setPath fs' cwd f newFilePath
        ⟨fs', f', e⟩
    else
      match osRename fs cwd f.path newFilePath with
      | Except.error e => ⟨fs, f, some e⟩
      | Except.ok fs' =>
        let (f', e) := File.setPath fs' cwd f newFilePath
        ⟨fs', f', e⟩

/-- Embedding of `File.rename`: delegate to `_execute_rename` with the file's current
parent directory as the target directory. -/
def File.rename (fs : FS) (cwd : String) (f : File) (newFileName : String)
    (replaceExistingFile : Bool) : OpResult File :=
  File.executeRename fs cwd f f.parent (some newFileName) replaceExistingFile

/-- Embedding of `File.move`: delegate to `_execute_rename` with an explicit target
directory. -/
def File.move (fs : FS) (cwd : String) (f : File) (directory : String)
    (newFileName : Option String) (replaceExistingFile : Bool) :
    OpResult File :=
  File.executeRename fs cwd f directory newFileName replaceExistingFile

/-- Embedding of `File.remove`: `os.remove(self.path)`; the stored path is never
touched. -/
def File.removeOp (fs : FS) (cwd : String) (f : File) : OpResult File :=
  match osRemove fs cwd f.path with
  | Except.error e => ⟨fs, f, some e⟩
  | Except.ok fs' => ⟨fs', f, none⟩

/-! ## The Directory entity (classyfd/directory/directory.py) -/

/-- The state of a classyfd `Directory` object: its stored path attribute. -/
structure Directory where
  path : String
deriving DecidableEq

/-- Embedding of `Directory.__init__`: reject an empty path with
`InvalidDirectoryValueError`, reject a path that exists and is a file with
`NotADirectoryError`, otherwise store
`utils.normalize_path(os.path.abspath(path))`. -/
def Directory.init (fs : FS) (cwd path : String) : Except FSError Directory :=
  if path = "" then Except.error FSError.invalidDirectoryValue
  else if osExists fs cwd path && osIsfile fs cwd path then
    Except.error FSError.notADirectory
  else Except.ok ⟨normalize_path (abspathStr cwd path)⟩

/-- The `Directory.path` property setter: reject a path that exists and is a
file, otherwise store `utils.normalize_path(os.path.abspath(new_path))`. -/
def Directory.setPath (fs : FS) (cwd : String) (d : Directory)
    (newPath : String) : Directory × Option FSError :=
  if osExists fs cwd newPath && osIsfile fs cwd newPath then
    (d, some FSError.notADirectory)
  else (⟨normalize_path (abspathStr cwd newPath)⟩, none)

/-- Embedding of `Directory.name`. -/
def Directory.name (d : Directory) : String := String.mk (plibNameL d.path.data)

/-- Embedding of `Directory.parent`. -/
def Directory.parent (d : Directory) : String :=
  String.mk (plibParentL d.path.data)

/-- Embedding of `Directory._execute_rename`: validate the new name, compute the
destination by joining, and when the destination exists raise
`FileExistsError` if it is a file or `IsADirectoryError` if it is a
directory; only when the destination does not exist is `os.rename` called.
In every non-raising continuation the destination is then run through the
`path` setter — including the fall-through where the destination exists but
is neither a file nor a directory, in which case no rename is performed. -/
def Directory.executeRename (fs : FS) (cwd : String) (d : Directory)
    (baseDirectory : String) (newDirectoryName : Option String) :
    OpResult Directory :=
  if truthy newDirectoryName && hasSlash (newDirectoryName.getD "") then
    ⟨fs, d, some FSError.invalidDirectoryValue⟩
  else
    let newDirectoryPath :=
      if truthy newDirectoryName then
        osJoin baseDirectory (newDirectoryName.getD "")
      else osJoin baseDirectory d.name
    let pathAlreadyExists := osExists fs cwd newDirectoryPath
    if pathAlreadyExists then
      if osIsfile fs cwd newDirectoryPath then
        ⟨fs, d, some FSError.fileExists⟩
      else if osIsdir fs cwd newDirectoryPath then
        ⟨fs, d, some FSError.isADirectory⟩
      else
        let (d', e) := Directory.setPath fs cwd d newDirectoryPath
        ⟨fs, d', e⟩
    else
      match osRename fs cwd d.path newDirectoryPath with
      | Except.error e => ⟨fs, d, some e⟩
      | Except.ok fs' =>
        let (d', e) := Directory.setPath fs' cwd d newDirectoryPath
        ⟨fs', d', e⟩

/-- Embedding of `Directory.rename`: delegate to `_execute_rename` with the directory's
current parent; there is no replace-existing option. -/
def Directory.rename (fs : FS) (cwd : String) (d : Directory)
    (newDirectoryName : String) : OpResult Directory :=
  Directory.executeRename fs cwd d d.parent (some newDirectoryName)

/-- Embedding of `Directory.remove`: `os.rmdir` when `empty_only`, `shutil.rmtree`
otherwise; the stored path is never touched. -/
def Directory.removeOp (fs : FS) (cwd : String) (d : Directory)
    (emptyOnly : Bool) : OpResult Directory :=
  match (if emptyOnly then osRmdir fs cwd d.path else osRmtree fs cwd d.path)
      with
  | Except.error e => ⟨fs, d, some e⟩
  | Except.ok fs' => ⟨fs', d, none⟩

/-! ## utils.get_random_file_name -/

/-- The candidate alphabet `tuple(string.ascii_lowercase + string.digits)`. -/
def validCharacters : List Char :=
  "abcdefghijklmnopqrstuvwxyz0123456789".data

/-- One 32-character candidate name built from draws `32*k, …, 32*k+31` of
the random stream (each `random.choice` returns an alphabet element). -/
def randomCandidate (stream : Nat → Fin 36) (k : Nat) : String :=
  String.mk ((List.range 32).map
    (fun i => validCharacters.get ((stream (32 * k + i)).cast (by decide))))

/-- The retry loop of `utils.get_random_file_name`, with an explicit fuel
bound standing for the unbounded `while True`; `none` means the loop had
not yet found a free name within `fuel` draws. -/
def getRandomFileNameAux (fs : FS) (cwd directory : String)
    (stream : Nat → Fin 36) : Nat → Nat → Option String
  | 0, _ => none
  | fuel + 1, k =>
    let name := randomCandidate stream k
    if osExists fs cwd (osJoin directory name) then
      getRandomFileNameAux fs cwd directory stream fuel (k + 1)
    else some name

/-- Embedding of `utils.get_random_file_name(directory)`. -/
def get_random_file_name (fs : FS) (cwd directory : String)
    (stream : Nat → Fin 36) (fuel : Nat) : Option String :=
  getRandomFileNameAux fs cwd directory stream fuel 0

/-! ## Helper lemmas about the substitution scanners -/

/-- At an occurrence of the literal text, `braceSub` substitutes a single
forward slash and resumes after it. -/
theorem braceSub_seq (rest : List Char) :
    braceSub (braceSeq ++ rest) = '/' :: braceSub rest := rfl

/-- When no occurrence starts at the head, `braceSub` copies the head. -/
theorem braceSub_cons_of_not {c : Char} {t : List Char}
    (h : startsWithBrace (c :: t) = false) :
    braceSub (c :: t) = c :: braceSub t := by
  rw [braceSub.eq_def]
  split
  · rename_i rest heq
    exfalso
    rw [show c :: t = braceSeq ++ rest from heq] at h
    simp [startsWithBrace, braceSeq] at h
  · rename_i c' rest' hne heq
    cases heq
    rfl
  · rename_i heq
    exact absurd heq (by simp)

/-- A list whose four-character head test succeeds decomposes as the
literal text followed by a remainder. -/
theorem startsWithBrace_shape {c : Char} {t : List Char}
    (h : startsWithBrace (c :: t) = true) :
    ∃ r, c :: t = braceSeq ++ r := by
  refine ⟨(c :: t).drop 4, ?_⟩
  have h4 : (c :: t).take 4 = braceSeq := by simpa [startsWithBrace] using h
  conv_lhs => rw [← List.take_append_drop 4 (c :: t)]
  rw [h4]

/-- Single-equation characterization of the scanner, mirroring the
non-overlapping left-to-right semantics of `re.sub`. -/
theorem braceSub_cons (c : Char) (t : List Char) :
    braceSub (c :: t) =
      if startsWithBrace (c :: t) then '/' :: braceSub (t.drop 3)
      else c :: braceSub t := by
  by_cases h : startsWithBrace (c :: t)
  · obtain ⟨r, hr⟩ := startsWithBrace_shape h
    rw [if_pos h, hr, braceSub_seq]
    have hdrop : t.drop 3 = r := by
      have h4 := congrArg (List.drop 4) hr
      simpa [braceSeq] using h4
    rw [hdrop]
  · rw [if_neg h, braceSub_cons_of_not (Bool.not_eq_true _ ▸ h)]

/-! ## Claim C3 -/

/-- C3: the claim states that on POSIX `normalizePath` collapses runs of
backslashes, with `normalizePath("//a\b\c") = "/a/b/c"`.  The code's
backslash pattern `r"\{1,}"` escapes the brace instead of the backslash, so
backslashes survive: the function returns `/a\b\c`, contradicting its own
docstring ("only forward slashes are allowed to be returned" on Unix-like
systems). -/
theorem c3_backslashes_not_collapsed :
    normalize_path "//a\\b\\c" = "/a\\b\\c" ∧
    normalize_path "//a\\b\\c" ≠ "/a/b/c" := by
  constructor <;> decide

/-! ## Claim C4 -/

/-- C4: whenever construction of a File or Directory from `p` succeeds, the
stored path equals `normalizePath(absolute(p))`; construction from the
empty string fails with the entity's `InvalidValue` error. -/
theorem c4_construction_stores_normalized_abspath (fs : FS) (cwd p : String) :
    (∀ f : File, File.init fs cwd p = Except.ok f →
      f.path = normalize_path (abspathStr cwd p)) ∧
    (∀ d : Directory, Directory.init fs cwd p = Except.ok d →
      d.path = normalize_path (abspathStr cwd p)) ∧
    (p = "" →
      File.init fs cwd p = Except.error FSError.invalidFileValue ∧
      Directory.init fs cwd p = Except.error FSError.invalidDirectoryValue) := by
  refine ⟨?_, ?_, ?_⟩
  · intro f h
    by_cases h1 : p = ""
    · simp [File.init, h1] at h
    · by_cases h2 : (osExists fs cwd p && osIsdir fs cwd p) = true
      · simp [File.init, h1, h2] at h
      · simp only [File.init, if_neg h1, if_neg h2] at h
        obtain rfl := Except.ok.inj h
        rfl
  · intro d h
    by_cases h1 : p = ""
    · simp [Directory.init, h1] at h
    · by_cases h2 : (osExists fs cwd p && osIsfile fs cwd p) = true
      · simp [Directory.init, h1, h2] at h
      · simp only [Directory.init, if_neg h1, if_neg h2] at h
        obtain rfl := Except.ok.inj h
        rfl
  · intro hp
    subst hp
    constructor <;> rfl

/-- C4, witness: a concrete successful construction and a concrete empty
rejection. -/
theorem c4_witness :
    (⟨"/c/x"⟩ : File).path = normalize_path (abspathStr "/c" "x") ∧
    File.init [] "/c" "" = Except.error FSError.invalidFileValue :=
  ⟨(c4_construction_stores_normalized_abspath [] "/c" "x").1 ⟨"/c/x"⟩ rfl,
   ((c4_construction_stores_normalized_abspath [] "/c" "").2.2 rfl).1⟩

/-! ## Claim C7 -/

/-- C7: constructing a File from a path that currently resolves to an
existing directory fails with `IsADirectoryError`; constructing a Directory
from a path that currently resolves to an existing file fails with
`NotADirectoryError`. -/
theorem c7_construction_type_conflict (fs : FS) (cwd p : String) :
    (osIsdir fs cwd p = true →
      File.init fs cwd p = Except.error FSError.isADirectory) ∧
    (osIsfile fs cwd p = true →
      Directory.init fs cwd p = Except.error FSError.notADirectory) := by
  constructor
  · intro h
    have hp : ¬ p = "" := by
      intro e
      subst e
      simp [osIsdir] at h
    have hex : osExists fs cwd p = true := by
      simp only [osIsdir, if_neg hp] at h
      simp only [osExists, if_neg hp]
      rcases hl : fs.lookup (fsKey cwd p) with _ | k
      · rw [hl] at h
        exact absurd h (by simp)
      · simp [hl]
    simp [File.init, hp, hex, h]
  · intro h
    have hp : ¬ p = "" := by
      intro e
      subst e
      simp [osIsfile] at h
    have hex : osExists fs cwd p = true := by
      simp only [osIsfile, if_neg hp] at h
      simp only [osExists, if_neg hp]
      rcases hl : fs.lookup (fsKey cwd p) with _ | k
      · rw [hl] at h
        exact absurd h (by simp)
      · simp [hl]
    simp [Directory.init, hp, hex, h]

/-- C7, witness: concrete conflicting constructions. -/
theorem c7_witness :
    File.init [("/d", EntryKind.dir)] "/" "d" =
      Except.error FSError.isADirectory ∧
    Directory.init [("/f", EntryKind.file)] "/" "f" =
      Except.error FSError.notADirectory :=
  ⟨(c7_construction_type_conflict [("/d", EntryKind.dir)] "/" "d").1 (by decide),
   (c7_construction_type_conflict [("/f", EntryKind.file)] "/" "f").2 (by decide)⟩

/-! ## Claim C5 -/

/-- C5, counterexample: reassigning the path attribute to the empty string
does not fail with the `InvalidValue` error the constructor raises — the
setter has no empty-path check, so the assignment succeeds and stores the
normalized current working directory. -/
theorem c5_counterexample :
    File.setPath [("/t", EntryKind.dir), ("/t/f", EntryKind.file)] "/home/u"
      ⟨"/t/f"⟩ "" = (⟨"/home/u"⟩, none) ∧
    Directory.setPath [("/t", EntryKind.dir)] "/home/u" ⟨"/t"⟩ "" =
      (⟨"/home/u"⟩, none) := by
  constructor <;> decide

/-- C5 (amended): every path reassignment repeats the type-conflict
validation and the normalization of the constructor — it fails on a
type-conflicting existing entry and otherwise stores
`normalizePath(absolute(newPath))` — but it does not repeat the empty-path
`InvalidValue` check: assigning the empty string succeeds and stores the
normalized current working directory. -/
theorem c5_setter_revalidates (fs : FS) (cwd : String) (f : File)
    (d : Directory) (p : String) :
    ((osExists fs cwd p && osIsdir fs cwd p) = true →
      File.setPath fs cwd f p = (f, some FSError.isADirectory)) ∧
    ((osExists fs cwd p && osIsdir fs cwd p) = false →
      File.setPath fs cwd f p = (⟨normalize_path (abspathStr cwd p)⟩, none)) ∧
    ((osExists fs cwd p && osIsfile fs cwd p) = true →
      Directory.setPath fs cwd d p = (d, some FSError.notADirectory)) ∧
    ((osExists fs cwd p && osIsfile fs cwd p) = false →
      Directory.setPath fs cwd d p =
        (⟨normalize_path (abspathStr cwd p)⟩, none)) ∧
    File.setPath fs cwd f "" = (⟨normalize_path (abspathStr cwd "")⟩, none) ∧
    Directory.setPath fs cwd d "" =
      (⟨normalize_path (abspathStr cwd "")⟩, none) := by
  refine ⟨?_, ?_, ?_, ?_, ?_, ?_⟩
  · intro h
    simp [File.setPath, h]
  · intro h
    simp [File.setPath, h]
  · intro h
    simp [Directory.setPath, h]
  · intro h
    simp [Directory.setPath, h]
  · have hne : osExists fs cwd "" = false := by simp [osExists]
    simp [File.setPath, hne]
  · have hne : osExists fs cwd "" = false := by simp [osExists]
    simp [Directory.setPath, hne]

/-- C5, witness: a concrete rejected and a concrete accepted reassignment. -/
theorem c5_witness :
    File.setPath [("/d", EntryKind.dir)] "/" ⟨"/x"⟩ "d" =
      (⟨"/x"⟩, some FSError.isADirectory) ∧
    File.setPath [] "/" ⟨"/x"⟩ "y" =
      (⟨normalize_path (abspathStr "/" "y")⟩, none) :=
  ⟨(c5_setter_revalidates [("/d", EntryKind.dir)] "/" ⟨"/x"⟩ ⟨"/x"⟩ "d").1
      (by decide),
   (c5_setter_revalidates [] "/" ⟨"/x"⟩ ⟨"/x"⟩ "y").2.1 (by decide)⟩

/-! ## Counterexamples for claims C1, C2, C6, C8 -/

/-- C1, counterexample: renaming a file to the slash-free name
`a\x7b1,\x7db` succeeds, the platform moves the file to the destination
`/t/a\x7b1,\x7db`, but the stored path becomes `/t/a/b` — the path setter's
normalization rewrites the literal `\x7b1,\x7d` text, so the stored path is
not the destination. -/
theorem c1_counterexample :
    (File.rename [("/t", EntryKind.dir), ("/t/f", EntryKind.file)] "/"
        ⟨"/t/f"⟩ "a\x7b1,\x7db" false) =
      ⟨[("/t", EntryKind.dir), ("/t/a\x7b1,\x7db", EntryKind.file)],
       ⟨"/t/a/b"⟩, none⟩ ∧
    ("/t/a/b" : String) ≠ "/t/a\x7b1,\x7db" := by
  constructor <;> decide

/-- C2, counterexample: with the rename destination occupied by an entry
that is neither a file nor a directory, `Directory.rename` raises no error
and performs no platform operation (the filesystem is returned unchanged),
yet the stored path is updated. -/
theorem c2_counterexample :
    (Directory.rename [("/t", EntryKind.dir), ("/t/a", EntryKind.dir),
        ("/t/b", EntryKind.other)] "/" ⟨"/t/a"⟩ "b") =
      ⟨[("/t", EntryKind.dir), ("/t/a", EntryKind.dir),
        ("/t/b", EntryKind.other)], ⟨"/t/b"⟩, none⟩ ∧
    ("/t/b" : String) ≠ "/t/a" := by
  constructor <;> decide

/-- C6, counterexample: a destination occupied by an entry that is neither
a file nor a directory does not make `Directory.rename` fail, so the rename
does not always fail on an occupied destination. -/
theorem c6_counterexample :
    osExists [("/q", EntryKind.dir), ("/q/a", EntryKind.dir),
        ("/q/s", EntryKind.other)] "/" "/q/s" = true ∧
    (Directory.rename [("/q", EntryKind.dir), ("/q/a", EntryKind.dir),
        ("/q/s", EntryKind.other)] "/" ⟨"/q/a"⟩ "s").err = none := by
  constructor <;> decide

/-- C8, counterexample: `normalizePath` is not idempotent — on
`a/\x7b1,\x7d/b` it produces `a///b`, and a second application collapses
that to `a/b`. -/
theorem c8_counterexample :
    normalize_path (normalize_path "a/\x7b1,\x7d/b") ≠
      normalize_path "a/\x7b1,\x7d/b" := by
  decide

/-! ## Claim C10 -/

/-- A string with no occurrence of the literal text passes through the
backslash-substitution scanner unchanged. -/
theorem braceSub_eq_self : ∀ {s : List Char}, hasBraceSeq s = false →
    braceSub s = s := by
  intro s
  induction s using braceSub.induct with
  | case1 rest ih =>
    intro h
    exfalso
    have hs : startsWithBrace ('\x7b' :: '1' :: ',' :: '\x7d' :: rest) = true := by
      simp [startsWithBrace, braceSeq]
    simp [hasBraceSeq, hs] at h
  | case2 c rest hex ih =>
    intro h
    have h2 : startsWithBrace (c :: rest) = false ∧ hasBraceSeq rest = false := by
      simpa [hasBraceSeq] using h
    rw [braceSub_cons_of_not h2.1, ih h2.2]
  | case3 => intro _; rfl

/-- The slash-collapsing scanner does not change the multiplicity of any
character other than the slash. -/
theorem collapseAux_count (c : Char) (hc : ¬ c = '/') :
    ∀ (prev : Bool) (s : List Char),
      (collapseAux prev s).count c = s.count c := by
  intro prev s
  induction s generalizing prev with
  | nil => rfl
  | cons a t ih =>
    by_cases ha : a = '/'
    · subst ha
      cases prev <;>
        simp [collapseAux, ih, List.count_cons, hc]
    · simp [collapseAux, ha, ih, List.count_cons]

/-- The backslash-substitution scanner does not change the multiplicity of
any character that is neither in the matched text nor the slash it
inserts. -/
theorem braceSub_count (c : Char) (hc1 : ¬ c ∈ braceSeq) (hc2 : ¬ c = '/') :
    ∀ s : List Char, (braceSub s).count c = s.count c := by
  intro s
  induction s using braceSub.induct with
  | case1 rest ih =>
    rw [show ('\x7b' :: '1' :: ',' :: '\x7d' :: rest) = braceSeq ++ rest from
      rfl, braceSub_seq]
    rw [List.count_cons, List.count_append]
    rw [List.count_eq_zero.mpr hc1, ih]
    have hcs : ¬ ('/' : Char) = c := fun e => hc2 e.symm
    simp [hc2, hcs]
  | case2 a rest hex ih =>
    have ha : startsWithBrace (a :: rest) = false := by
      cases hb : startsWithBrace (a :: rest)
      · rfl
      · exfalso
        obtain ⟨r, hr⟩ := startsWithBrace_shape hb
        rw [show braceSeq ++ r = '\x7b' :: '1' :: ',' :: '\x7d' :: r from
          rfl] at hr
        injection hr with h1 h2
        exact hex r h1 h2
    rw [braceSub_cons_of_not ha]
    simp [List.count_cons, ih]
  | case3 => rfl

/-- C10: the backslash regular expression of `normalize_path` is written
`r"\{1,}"`, which matches the literal text `\x7b1,\x7d` rather than runs of
backslashes.  Each occurrence of that text (scanned left to right after
lexical normalization and slash collapsing) is replaced by a single forward
slash, strings without the text are untouched, the example path
`a/\x7b1,\x7d/b` normalizes to `a///b`, and backslash characters pass
through both substitution stages unchanged. -/
theorem c10_brace_text_substitution :
    (∀ b : List Char, braceSub (braceSeq ++ b) = '/' :: braceSub b) ∧
    (∀ s : List Char, hasBraceSeq s = false → braceSub s = s) ∧
    normalize_path "a/\x7b1,\x7d/b" = "a///b" ∧
    (∀ s : List Char,
      (braceSub (collapseSlash s)).count '\\' = s.count '\\') := by
  refine ⟨braceSub_seq, fun s h => braceSub_eq_self h, by decide, ?_⟩
  intro s
  rw [braceSub_count '\\' (by decide) (by decide),
    collapseSlash, collapseAux_count '\\' (by decide)]

/-- C10, witness: concrete instantiations of the quantified parts. -/
theorem c10_witness :
    braceSub (braceSeq ++ "x".data) = '/' :: braceSub "x".data ∧
    braceSub "ab".data = "ab".data ∧
    (braceSub (collapseSlash "a\\\\b".data)).count '\\' =
      "a\\\\b".data.count '\\' :=
  ⟨c10_brace_text_substitution.1 "x".data,
   c10_brace_text_substitution.2.1 "ab".data (by decide),
   c10_brace_text_substitution.2.2.2 "a\\\\b".data⟩

/-! ## Claim C9 -/

/-- Every 36 characters of the candidate alphabet satisfy the
lowercase-letter-or-digit range property. -/
theorem validCharacters_range :
    ∀ c ∈ validCharacters, ('a' ≤ c ∧ c ≤ 'z') ∨ ('0' ≤ c ∧ c ≤ '9') := by
  decide

/-- Any name returned by the retry loop is some draw's candidate, and its
joined path did not exist when the loop stopped. -/
theorem getRandomFileNameAux_spec (fs : FS) (cwd directory : String)
    (stream : Nat → Fin 36) :
    ∀ (fuel k : Nat) (name : String),
      getRandomFileNameAux fs cwd directory stream fuel k = some name →
      (∃ j : Nat, name = randomCandidate stream j) ∧
      osExists fs cwd (osJoin directory name) = false := by
  intro fuel
  induction fuel with
  | zero =>
    intro k name h
    simp [getRandomFileNameAux] at h
  | succ n ih =>
    intro k name h
    by_cases hex :
        osExists fs cwd (osJoin directory (randomCandidate stream k)) = true
    · rw [getRandomFileNameAux, if_pos hex] at h
      exact ih (k + 1) name h
    · rw [getRandomFileNameAux, if_neg hex] at h
      obtain rfl := Option.some.inj h
      exact ⟨⟨k, rfl⟩, Bool.of_not_eq_true hex⟩

/-- C9: whatever name `get_random_file_name` returns has exactly 32
characters, drawn only from lowercase ASCII letters and decimal digits, and
the joined path `directory/name` does not exist at return time. -/
theorem c9_random_name_properties (fs : FS) (cwd directory : String)
    (stream : Nat → Fin 36) (fuel : Nat) (name : String)
    (h : get_random_file_name fs cwd directory stream fuel = some name) :
    name.length = 32 ∧
    (∀ c ∈ name.data, ('a' ≤ c ∧ c ≤ 'z') ∨ ('0' ≤ c ∧ c ≤ '9')) ∧
    osExists fs cwd (osJoin directory name) = false := by
  obtain ⟨⟨j, rfl⟩, hfree⟩ :=
    getRandomFileNameAux_spec fs cwd directory stream fuel 0 name h
  refine ⟨?_, ?_, hfree⟩
  · simp [randomCandidate, String.length]
  · intro c hc
    simp only [randomCandidate] at hc
    obtain ⟨i, hi, rfl⟩ := List.mem_map.mp hc
    exact validCharacters_range _ (List.get_mem _ _ _)

/-- C9, witness: with a constant random stream the first candidate is the
all-a name, which is returned and satisfies the three properties. -/
theorem c9_witness :
    ("aaaaaaaaaaaaaaaaaaaaaaaaaaaaaaaa" : String).length = 32 ∧
    (∀ c ∈ ("aaaaaaaaaaaaaaaaaaaaaaaaaaaaaaaa" : String).data,
      ('a' ≤ c ∧ c ≤ 'z') ∨ ('0' ≤ c ∧ c ≤ '9')) ∧
    osExists [] "/" (osJoin "/d" "aaaaaaaaaaaaaaaaaaaaaaaaaaaaaaaa") = false :=
  c9_random_name_properties [] "/" "/d" (fun _ => 0) 1
    "aaaaaaaaaaaaaaaaaaaaaaaaaaaaaaaa" (by decide)

/-! ## Claim C1 -/

/-- Whenever `os.path.isfile` answers true, `os.path.exists` does too. -/
theorem osExists_of_osIsfile {fs : FS} {cwd p : String}
    (h : osIsfile fs cwd p = true) : osExists fs cwd p = true := by
  by_cases hp : p = ""
  · simp [osIsfile, hp] at h
  · simp only [osIsfile, if_neg hp] at h
    simp only [osExists, if_neg hp]
    rcases hl : fs.lookup (fsKey cwd p) with _ | k
    · rw [hl] at h
      exact absurd h (by simp)
    · simp [hl]

/-- Whenever `os.path.isdir` answers true, `os.path.exists` does too. -/
theorem osExists_of_osIsdir {fs : FS} {cwd p : String}
    (h : osIsdir fs cwd p = true) : osExists fs cwd p = true := by
  by_cases hp : p = ""
  · simp [osIsdir, hp] at h
  · simp only [osIsdir, if_neg hp] at h
    simp only [osExists, if_neg hp]
    rcases hl : fs.lookup (fsKey cwd p) with _ | k
    · rw [hl] at h
      exact absurd h (by simp)
    · simp [hl]

/-- A path cannot test as a file and as a directory at once. -/
theorem osIsfile_eq_false_of_osIsdir {fs : FS} {cwd p : String}
    (h : osIsdir fs cwd p = true) : osIsfile fs cwd p = false := by
  by_cases hp : p = ""
  · simp [osIsfile, hp]
  · simp only [osIsdir, if_neg hp] at h
    simp only [osIsfile, if_neg hp]
    rcases hl : fs.lookup (fsKey cwd p) with _ | k
    · rfl
    · cases k <;> simp_all

/-- C1 (amended): `File.rename` and `File.move` funnel into the shared
`_execute_rename` routine, which rejects a supplied new name containing a
slash or backslash with `InvalidFileValueError`, joins the target directory
with the new name (or the current name), fails with `FileExistsError` on an
occupied destination without replacement, calls the platform's atomic
`os.replace` on an occupied destination with replacement, calls `os.rename`
otherwise, and on success stores `normalizePath(abspath(destination))` —
which can differ from the destination itself (see the counterexample). -/
theorem c1_file_rename_shared_routine (fs : FS) (cwd : String) (f : File)
    (directory : String) (nn : Option String) (n : String) (repl : Bool) :
    File.rename fs cwd f n repl =
      File.executeRename fs cwd f f.parent (some n) repl ∧
    File.move fs cwd f directory nn repl =
      File.executeRename fs cwd f directory nn repl ∧
    (truthy nn = true → hasSlash (nn.getD "") = true →
      File.executeRename fs cwd f directory nn repl =
        ⟨fs, f, some FSError.invalidFileValue⟩) ∧
    ((truthy nn && hasSlash (nn.getD "")) = false →
      (osExists fs cwd (if truthy nn then osJoin directory (nn.getD "")
            else osJoin directory f.name) = true → repl = false →
        File.executeRename fs cwd f directory nn repl =
          ⟨fs, f, some FSError.fileExists⟩) ∧
      (osExists fs cwd (if truthy nn then osJoin directory (nn.getD "")
            else osJoin directory f.name) = true → repl = true →
        (∀ e, osReplace fs cwd f.path (if truthy nn then
              osJoin directory (nn.getD "") else osJoin directory f.name) =
            Except.error e →
          File.executeRename fs cwd f directory nn repl = ⟨fs, f, some e⟩) ∧
        (∀ fs', osReplace fs cwd f.path (if truthy nn then
              osJoin directory (nn.getD "") else osJoin directory f.name) =
            Except.ok fs' →
          File.executeRename fs cwd f directory nn repl =
            ⟨fs',
             (File.setPath fs' cwd f (if truthy nn then
                osJoin directory (nn.getD "") else osJoin directory f.name)).1,
             (File.setPath fs' cwd f (if truthy nn then
                osJoin directory (nn.getD "")
                else osJoin directory f.name)).2⟩)) ∧
      (osExists fs cwd (if truthy nn then osJoin directory (nn.getD "")
            else osJoin directory f.name) = false →
        (∀ e, osRename fs cwd f.path (if truthy nn then
              osJoin directory (nn.getD "") else osJoin directory f.name) =
            Except.error e →
          File.executeRename fs cwd f directory nn repl = ⟨fs, f, some e⟩) ∧
        (∀ fs', osRename fs cwd f.path (if truthy nn then
              osJoin directory (nn.getD "") else osJoin directory f.name) =
            Except.ok fs' →
          File.executeRename fs cwd f directory nn repl =
            ⟨fs',
             (File.setPath fs' cwd f (if truthy nn then
                osJoin directory (nn.getD "") else osJoin directory f.name)).1,
             (File.setPath fs' cwd f (if truthy nn then
                osJoin directory (nn.getD "")
                else osJoin directory f.name)).2⟩))) ∧
    ((File.executeRename fs cwd f directory nn repl).err = none →
      (File.executeRename fs cwd f directory nn repl).self.path =
        normalize_path (abspathStr cwd (if truthy nn then
          osJoin directory (nn.getD "") else osJoin directory f.name))) := by
  refine ⟨rfl, rfl, ?_, ?_, ?_⟩
  · intro h1 h2
    simp [File.executeRename, h1, h2]
  · intro hv
    refine ⟨?_, ?_, ?_⟩
    · intro hex hrepl
      subst hrepl
      simp [File.executeRename, hv, hex]
    · intro hex hrepl
      subst hrepl
      constructor
      · intro e he
        simp [File.executeRename, hv, hex, he]
      · intro fs' hok
        simp [File.executeRename, hv, hex, hok]
    · intro hex
      constructor
      · intro e he
        simp [File.executeRename, hv, hex, he]
      · intro fs' hok
        simp [File.executeRename, hv, hex, hok]
  · intro hnone
    by_cases hv : (truthy nn && hasSlash (nn.getD "")) = true
    · simp [File.executeRename, hv] at hnone
    · rw [Bool.not_eq_true] at hv
      by_cases hex : osExists fs cwd (if truthy nn then
          osJoin directory (nn.getD "") else osJoin directory f.name) = true
      · cases repl with
        | false => simp [File.executeRename, hv, hex] at hnone
        | true =>
          rcases hr : osReplace fs cwd f.path (if truthy nn then
              osJoin directory (nn.getD "")
              else osJoin directory f.name) with e | fs'
          · simp [File.executeRename, hv, hex, hr] at hnone
          · simp only [File.executeRename, hv, hex, hr] at hnone ⊢
            simp only [Bool.and_false, Bool.and_true, Bool.false_eq_true,
              if_false, if_true] at hnone ⊢
            by_cases hc : (osExists fs' cwd (if truthy nn then
                osJoin directory (nn.getD "") else osJoin directory f.name) &&
                osIsdir fs' cwd (if truthy nn then
                osJoin directory (nn.getD "")
                else osJoin directory f.name)) = true
            · simp [File.setPath, hc] at hnone
            · simp [File.setPath, hc]
      · rw [Bool.not_eq_true] at hex
        rcases hr : osRename fs cwd f.path (if truthy nn then
            osJoin directory (nn.getD "")
            else osJoin directory f.name) with e | fs'
        · simp [File.executeRename, hv, hex, hr] at hnone
        · simp only [File.executeRename, hv, hex, hr] at hnone ⊢
          simp only [Bool.and_false, Bool.and_true, Bool.false_eq_true,
            if_false] at hnone ⊢
          by_cases hc : (osExists fs' cwd (if truthy nn then
              osJoin directory (nn.getD "") else osJoin directory f.name) &&
              osIsdir fs' cwd (if truthy nn then
              osJoin directory (nn.getD "")
              else osJoin directory f.name)) = true
          · simp [File.setPath, hc] at hnone
          · simp [File.setPath, hc]

/-- C1, witness: a concrete occupied-destination failure and a concrete
successful rename whose stored path is the normalized destination. -/
theorem c1_witness :
    File.executeRename [("/t", EntryKind.dir), ("/t/f", EntryKind.file),
        ("/t/g", EntryKind.file)] "/" ⟨"/t/f"⟩ "/t" (some "g") false =
      ⟨[("/t", EntryKind.dir), ("/t/f", EntryKind.file),
        ("/t/g", EntryKind.file)], ⟨"/t/f"⟩, some FSError.fileExists⟩ ∧
    (File.executeRename [("/t", EntryKind.dir), ("/t/f", EntryKind.file)] "/"
        ⟨"/t/f"⟩ "/t" (some "g") false).self.path =
      normalize_path (abspathStr "/" (if truthy (some "g") then
        osJoin "/t" ((some "g").getD "")
        else osJoin "/t" (⟨"/t/f"⟩ : File).name)) :=
  ⟨((c1_file_rename_shared_routine [("/t", EntryKind.dir),
      ("/t/f", EntryKind.file), ("/t/g", EntryKind.file)] "/" ⟨"/t/f"⟩ "/t"
      (some "g") "g" false).2.2.2.1 (by decide)).1 (by decide) rfl,
   (c1_file_rename_shared_routine [("/t", EntryKind.dir),
      ("/t/f", EntryKind.file)] "/" ⟨"/t/f"⟩ "/t"
      (some "g") "g" false).2.2.2.2 (by decide)⟩

/-! ## Claim C2 -/

/-- Exhaustive outcomes of `File._execute_rename`: either it raises before
any platform call with everything unchanged, or exactly one platform
rename/replace succeeded and the final setter either raises (leaving the
stored path unchanged) or stores the normalized destination. -/
theorem fileExecuteRename_shape (fs : FS) (cwd : String) (f : File)
    (directory : String) (nn : Option String) (repl : Bool) :
    (∃ e, File.executeRename fs cwd f directory nn repl = ⟨fs, f, some e⟩) ∨
    (∃ fs',
      (osReplace fs cwd f.path (if truthy nn then osJoin directory (nn.getD "")
          else osJoin directory f.name) = Except.ok fs' ∨
       osRename fs cwd f.path (if truthy nn then osJoin directory (nn.getD "")
          else osJoin directory f.name) = Except.ok fs') ∧
      (File.executeRename fs cwd f directory nn repl =
        ⟨fs', f, some FSError.isADirectory⟩ ∨
       File.executeRename fs cwd f directory nn repl =
        ⟨fs', ⟨normalize_path (abspathStr cwd (if truthy nn then
          osJoin directory (nn.getD "") else osJoin directory f.name))⟩,
         none⟩)) := by
  by_cases hv : (truthy nn && hasSlash (nn.getD "")) = true
  · exact Or.inl ⟨FSError.invalidFileValue, by simp [File.executeRename, hv]⟩
  · rw [Bool.not_eq_true] at hv
    by_cases hex : osExists fs cwd (if truthy nn then
        osJoin directory (nn.getD "") else osJoin directory f.name) = true
    · cases repl with
      | false =>
        exact Or.inl ⟨FSError.fileExists, by simp [File.executeRename, hv, hex]⟩
      | true =>
        rcases hr : osReplace fs cwd f.path (if truthy nn then
            osJoin directory (nn.getD "")
            else osJoin directory f.name) with e | fs'
        · exact Or.inl ⟨e, by simp [File.executeRename, hv, hex, hr]⟩
        · refine Or.inr ⟨fs', Or.inl rfl, ?_⟩
          by_cases hc : (osExists fs' cwd (if truthy nn then
              osJoin directory (nn.getD "") else osJoin directory f.name) &&
              osIsdir fs' cwd (if truthy nn then
              osJoin directory (nn.getD "")
              else osJoin directory f.name)) = true
          · exact Or.inl (by
              simp [File.executeRename, hv, hex, hr, File.setPath, hc])
          · exact Or.inr (by
              simp [File.executeRename, hv, hex, hr, File.setPath, hc])
    · rw [Bool.not_eq_true] at hex
      rcases hr : osRename fs cwd f.path (if truthy nn then
          osJoin directory (nn.getD "")
          else osJoin directory f.name) with e | fs'
      · exact Or.inl ⟨e, by simp [File.executeRename, hv, hex, hr]⟩
      · refine Or.inr ⟨fs', Or.inr rfl, ?_⟩
        by_cases hc : (osExists fs' cwd (if truthy nn then
            osJoin directory (nn.getD "") else osJoin directory f.name) &&
            osIsdir fs' cwd (if truthy nn then
            osJoin directory (nn.getD "")
            else osJoin directory f.name)) = true
        · exact Or.inl (by
            simp [File.executeRename, hv, hex, hr, File.setPath, hc])
        · exact Or.inr (by
            simp [File.executeRename, hv, hex, hr, File.setPath, hc])

/-- Exhaustive outcomes of `Directory._execute_rename`: a pre-call error
with everything unchanged; the silent fall-through (destination exists as
neither file nor directory) where nothing is renamed but the stored path is
updated; or a successful platform rename followed by the setter. -/
theorem dirExecuteRename_shape (fs : FS) (cwd : String) (d : Directory)
    (bd : String) (dn : Option String) :
    (∃ e, Directory.executeRename fs cwd d bd dn = ⟨fs, d, some e⟩) ∨
    (osExists fs cwd (if truthy dn then osJoin bd (dn.getD "")
        else osJoin bd d.name) = true ∧
     osIsfile fs cwd (if truthy dn then osJoin bd (dn.getD "")
        else osJoin bd d.name) = false ∧
     osIsdir fs cwd (if truthy dn then osJoin bd (dn.getD "")
        else osJoin bd d.name) = false ∧
     Directory.executeRename fs cwd d bd dn =
       ⟨fs, ⟨normalize_path (abspathStr cwd (if truthy dn then
         osJoin bd (dn.getD "") else osJoin bd d.name))⟩, none⟩) ∨
    (∃ fs', osRename fs cwd d.path (if truthy dn then osJoin bd (dn.getD "")
        else osJoin bd d.name) = Except.ok fs' ∧
      (Directory.executeRename fs cwd d bd dn =
        ⟨fs', d, some FSError.notADirectory⟩ ∨
       Directory.executeRename fs cwd d bd dn =
        ⟨fs', ⟨normalize_path (abspathStr cwd (if truthy dn then
          osJoin bd (dn.getD "") else osJoin bd d.name))⟩, none⟩)) := by
  by_cases hv : (truthy dn && hasSlash (dn.getD "")) = true
  · exact Or.inl ⟨FSError.invalidDirectoryValue,
      by simp [Directory.executeRename, hv]⟩
  · rw [Bool.not_eq_true] at hv
    by_cases hex : osExists fs cwd (if truthy dn then osJoin bd (dn.getD "")
        else osJoin bd d.name) = true
    · by_cases hf : osIsfile fs cwd (if truthy dn then osJoin bd (dn.getD "")
          else osJoin bd d.name) = true
      · exact Or.inl ⟨FSError.fileExists,
          by simp [Directory.executeRename, hv, hex, hf]⟩
      · rw [Bool.not_eq_true] at hf
        by_cases hd : osIsdir fs cwd (if truthy dn then osJoin bd (dn.getD "")
            else osJoin bd d.name) = true
        · exact Or.inl ⟨FSError.isADirectory,
            by simp [Directory.executeRename, hv, hex, hf, hd]⟩
        · rw [Bool.not_eq_true] at hd
          refine Or.inr (Or.inl ⟨hex, hf, hd, ?_⟩)
          have hc : (osExists fs cwd (if truthy dn then osJoin bd (dn.getD "")
              else osJoin bd d.name) && osIsfile fs cwd (if truthy dn then
              osJoin bd (dn.getD "") else osJoin bd d.name)) = false := by
            simp [hf]
          simp [Directory.executeRename, hv, hex, hf, hd, Directory.setPath, hc]
    · rw [Bool.not_eq_true] at hex
      rcases hr : osRename fs cwd d.path (if truthy dn then
          osJoin bd (dn.getD "") else osJoin bd d.name) with e | fs'
      · exact Or.inl ⟨e, by simp [Directory.executeRename, hv, hex, hr]⟩
      · refine Or.inr (Or.inr ⟨fs', rfl, ?_⟩)
        by_cases hc : (osExists fs' cwd (if truthy dn then
            osJoin bd (dn.getD "") else osJoin bd d.name) &&
            osIsfile fs' cwd (if truthy dn then
            osJoin bd (dn.getD "") else osJoin bd d.name)) = true
        · exact Or.inl (by
            simp [Directory.executeRename, hv, hex, hr, Directory.setPath, hc])
        · exact Or.inr (by
            simp [Directory.executeRename, hv, hex, hr, Directory.setPath, hc])

/-- C2 (amended): a failing operation never changes the stored path, and for
File the stored path changes only after a successful platform
rename/replace; for Directory the same holds except in the fall-through
where the destination exists as neither a file nor a directory, in which
case the stored path is updated although no platform operation was
performed (and no error is raised). -/
theorem c2_path_changes_only_after_platform_success (fs : FS) (cwd : String)
    (f : File) (d : Directory) (directory : String) (nn : Option String)
    (repl : Bool) (bd : String) (dn : Option String) (p : String)
    (eo : Bool) :
    ((File.executeRename fs cwd f directory nn repl).err.isSome = true →
      (File.executeRename fs cwd f directory nn repl).self = f) ∧
    (File.removeOp fs cwd f).self = f ∧
    ((File.setPath fs cwd f p).2.isSome = true →
      (File.setPath fs cwd f p).1 = f) ∧
    ((File.executeRename fs cwd f directory nn repl).self ≠ f →
      (File.executeRename fs cwd f directory nn repl).err = none ∧
      ∃ fs', (osReplace fs cwd f.path (if truthy nn then
            osJoin directory (nn.getD "") else osJoin directory f.name) =
          Except.ok fs' ∨
        osRename fs cwd f.path (if truthy nn then
            osJoin directory (nn.getD "") else osJoin directory f.name) =
          Except.ok fs') ∧
        (File.executeRename fs cwd f directory nn repl).fs = fs') ∧
    ((Directory.executeRename fs cwd d bd dn).err.isSome = true →
      (Directory.executeRename fs cwd d bd dn).self = d) ∧
    (Directory.removeOp fs cwd d eo).self = d ∧
    ((Directory.setPath fs cwd d p).2.isSome = true →
      (Directory.setPath fs cwd d p).1 = d) ∧
    ((Directory.executeRename fs cwd d bd dn).self ≠ d →
      (Directory.executeRename fs cwd d bd dn).err = none ∧
      ((∃ fs', osRename fs cwd d.path (if truthy dn then
            osJoin bd (dn.getD "") else osJoin bd d.name) = Except.ok fs' ∧
          (Directory.executeRename fs cwd d bd dn).fs = fs') ∨
       (osExists fs cwd (if truthy dn then osJoin bd (dn.getD "")
            else osJoin bd d.name) = true ∧
        osIsfile fs cwd (if truthy dn then osJoin bd (dn.getD "")
            else osJoin bd d.name) = false ∧
        osIsdir fs cwd (if truthy dn then osJoin bd (dn.getD "")
            else osJoin bd d.name) = false ∧
        (Directory.executeRename fs cwd d bd dn).fs = fs))) := by
  refine ⟨?_, ?_, ?_, ?_, ?_, ?_, ?_, ?_⟩
  · intro hsome
    rcases fileExecuteRename_shape fs cwd f directory nn repl with
      ⟨e, he⟩ | ⟨fs', hop, he | he⟩ <;> rw [he]
    rw [he] at hsome
    simp at hsome
  · rcases h : osRemove fs cwd f.path with e | fs' <;>
      simp [File.removeOp, h]
  · intro hsome
    simp only [File.setPath] at hsome ⊢
    split_ifs at hsome ⊢ with hc
    · rfl
    · simp at hsome
  · intro hne
    rcases fileExecuteRename_shape fs cwd f directory nn repl with
      ⟨e, he⟩ | ⟨fs', hop, he | he⟩
    · rw [he] at hne
      simp at hne
    · rw [he] at hne
      simp at hne
    · rw [he]
      exact ⟨rfl, fs', hop, rfl⟩
  · intro hsome
    rcases dirExecuteRename_shape fs cwd d bd dn with
      ⟨e, he⟩ | ⟨hex, hf, hd2, he⟩ | ⟨fs', hop, he | he⟩ <;> rw [he]
    · rw [he] at hsome
      simp at hsome
    · rw [he] at hsome
      simp at hsome
  · rcases h : (if eo then osRmdir fs cwd d.path else osRmtree fs cwd d.path)
        with e | fs' <;>
      simp [Directory.removeOp, h]
  · intro hsome
    simp only [Directory.setPath] at hsome ⊢
    split_ifs at hsome ⊢ with hc
    · rfl
    · simp at hsome
  · intro hne
    rcases dirExecuteRename_shape fs cwd d bd dn with
      ⟨e, he⟩ | ⟨hex, hf, hd2, he⟩ | ⟨fs', hop, he | he⟩
    · rw [he] at hne
      simp at hne
    · rw [he]
      exact ⟨rfl, Or.inr ⟨hex, hf, hd2, rfl⟩⟩
    · rw [he] at hne
      simp at hne
    · rw [he]
      exact ⟨rfl, Or.inl ⟨fs', hop, rfl⟩⟩

/-- C2, witness: a concrete failing rename (occupied destination) leaves
the stored path unchanged, and a concrete successful rename is backed by a
successful platform call. -/
theorem c2_witness :
    (File.executeRename [("/t", EntryKind.dir), ("/t/f", EntryKind.file),
        ("/t/g", EntryKind.file)] "/" ⟨"/t/f"⟩ "/t" (some "g") false).self =
      ⟨"/t/f"⟩ ∧
    (File.executeRename [("/t", EntryKind.dir), ("/t/f", EntryKind.file)] "/"
        ⟨"/t/f"⟩ "/t" (some "g") false).err = none :=
  ⟨(c2_path_changes_only_after_platform_success [("/t", EntryKind.dir),
      ("/t/f", EntryKind.file), ("/t/g", EntryKind.file)] "/" ⟨"/t/f"⟩
      ⟨"/t"⟩ "/t" (some "g") false "/t" (some "g") "/x" true).1 (by decide),
   ((c2_path_changes_only_after_platform_success [("/t", EntryKind.dir),
      ("/t/f", EntryKind.file)] "/" ⟨"/t/f"⟩ ⟨"/t"⟩ "/t" (some "g") false
      "/t" (some "g") "/x" true).2.2.2.1 (by decide)).1⟩

/-! ## Claim C6 -/

/-- C6 (amended): `Directory.rename` takes no replace option, and whenever
the destination is occupied by a file or by a directory it fails — with
`FileExistsError` or `IsADirectoryError` respectively — leaving the
filesystem and the stored path unchanged.  (A destination occupied by an
entry of any other kind does not fail; see the counterexample.) -/
theorem c6_directory_rename_occupied (fs : FS) (cwd : String) (d : Directory)
    (n : String) (hv : hasSlash n = false) :
    (osIsfile fs cwd (if truthy (some n) then osJoin d.parent n
        else osJoin d.parent d.name) = true →
      Directory.rename fs cwd d n = ⟨fs, d, some FSError.fileExists⟩) ∧
    (osIsdir fs cwd (if truthy (some n) then osJoin d.parent n
        else osJoin d.parent d.name) = true →
      Directory.rename fs cwd d n = ⟨fs, d, some FSError.isADirectory⟩) := by
  have hvv : (truthy (some n) && hasSlash ((some n).getD "")) = false := by
    simp [hv]
  constructor
  · intro hf
    have hex := osExists_of_osIsfile hf
    by_cases hn : truthy (some n) = true
    · rw [if_pos hn] at hf hex
      simp [Directory.rename, Directory.executeRename, hvv, hv, hn, hex, hf]
    · rw [Bool.not_eq_true] at hn
      rw [if_neg (by simp [hn])] at hf hex
      simp [Directory.rename, Directory.executeRename, hvv, hv, hn, hex, hf]
  · intro hd
    have hex := osExists_of_osIsdir hd
    have hf := osIsfile_eq_false_of_osIsdir hd
    by_cases hn : truthy (some n) = true
    · rw [if_pos hn] at hd hex hf
      simp [Directory.rename, Directory.executeRename, hvv, hv, hn, hex, hf, hd]
    · rw [Bool.not_eq_true] at hn
      rw [if_neg (by simp [hn])] at hd hex hf
      simp [Directory.rename, Directory.executeRename, hvv, hv, hn, hex, hf, hd]

/-- C6, witness: concrete renames onto a file and onto a directory, both
failing with the filesystem and the stored path unchanged. -/
theorem c6_witness :
    Directory.rename [("/t", EntryKind.dir), ("/t/a", EntryKind.dir),
        ("/t/c", EntryKind.file)] "/" ⟨"/t/a"⟩ "c" =
      ⟨[("/t", EntryKind.dir), ("/t/a", EntryKind.dir),
        ("/t/c", EntryKind.file)], ⟨"/t/a"⟩, some FSError.fileExists⟩ ∧
    Directory.rename [("/t", EntryKind.dir), ("/t/a", EntryKind.dir),
        ("/t/c", EntryKind.dir)] "/" ⟨"/t/a"⟩ "c" =
      ⟨[("/t", EntryKind.dir), ("/t/a", EntryKind.dir),
        ("/t/c", EntryKind.dir)], ⟨"/t/a"⟩, some FSError.isADirectory⟩ :=
  ⟨(c6_directory_rename_occupied [("/t", EntryKind.dir),
      ("/t/a", EntryKind.dir), ("/t/c", EntryKind.file)] "/" ⟨"/t/a"⟩ "c"
      (by decide)).1 (by decide),
   (c6_directory_rename_occupied [("/t", EntryKind.dir),
      ("/t/a", EntryKind.dir), ("/t/c", EntryKind.dir)] "/" ⟨"/t/a"⟩ "c"
      (by decide)).2 (by decide)⟩

/-! ## Claim C8: split / join toolkit -/

/-- Splitting never produces an empty list of components. -/
theorem splitSlash_ne_nil : ∀ s : List Char, splitSlash s ≠ []
  | [] => by simp [splitSlash]
  | c :: rest => by
    by_cases hc : c = '/'
    · simp [splitSlash, hc]
    · simp only [splitSlash, if_neg hc]
      rcases h : splitSlash rest with _ | ⟨g, gs⟩ <;> simp

/-- The first component of a split is a prefix of the input. -/
theorem splitSlash_head_pre :
    ∀ (s : List Char) (g : List Char) (gs : List (List Char)),
      splitSlash s = g :: gs → ∃ y, s = g ++ y := by
  intro s
  induction s with
  | nil =>
    intro g gs h
    simp only [splitSlash] at h
    obtain ⟨rfl, rfl⟩ := List.cons.inj h
    exact ⟨[], rfl⟩
  | cons c rest ih =>
    intro g gs h
    by_cases hc : c = '/'
    · simp only [splitSlash, if_pos hc] at h
      obtain ⟨rfl, rfl⟩ := List.cons.inj h
      exact ⟨c :: rest, rfl⟩
    · simp only [splitSlash, if_neg hc] at h
      rcases h2 : splitSlash rest with _ | ⟨g', gs'⟩
      · exact absurd h2 (splitSlash_ne_nil rest)
      · rw [h2] at h
        obtain ⟨rfl, rfl⟩ := List.cons.inj h
        obtain ⟨y, hy⟩ := ih g' gs' h2
        exact ⟨y, by rw [List.cons_append, ← hy]⟩

/-- Components produced by splitting contain no slash. -/
theorem mem_splitSlash_no_slash :
    ∀ (s : List Char) (c : List Char), c ∈ splitSlash s → '/' ∉ c := by
  intro s
  induction s with
  | nil =>
    intro c hc
    simp [splitSlash] at hc
    simp [hc]
  | cons a rest ih =>
    intro c hc
    by_cases ha : a = '/'
    · rw [show splitSlash (a :: rest) = [] :: splitSlash rest by
        simp [splitSlash, ha]] at hc
      rcases List.mem_cons.mp hc with rfl | hm
      · simp
      · exact ih c hm
    · rcases h2 : splitSlash rest with _ | ⟨g', gs'⟩
      · exact absurd h2 (splitSlash_ne_nil rest)
      · rw [show splitSlash (a :: rest) = (a :: g') :: gs' by
          simp [splitSlash, ha, h2]] at hc
        rcases List.mem_cons.mp hc with rfl | hm
        · intro hmem
          rcases List.mem_cons.mp hmem with he | hg
          · exact ha he.symm
          · exact ih g' (h2 ▸ List.mem_cons_self g' gs') hg
        · exact ih c (h2 ▸ List.mem_cons_of_mem g' hm)

/-- Splitting after a slash-free prefix keeps that prefix inside the first
component. -/
theorem splitSlash_append_noslash :
    ∀ (c r : List Char) (g : List Char) (gs : List (List Char)),
      '/' ∉ c → splitSlash r = g :: gs →
      splitSlash (c ++ r) = (c ++ g) :: gs := by
  intro c
  induction c with
  | nil =>
    intro r g gs _ h
    simpa using h
  | cons a c' ih =>
    intro r g gs hna h
    have ha : ¬ a = '/' := fun e => hna (e ▸ List.mem_cons_self a c')
    have hc' : '/' ∉ c' := fun hm => hna (List.mem_cons_of_mem a hm)
    rw [List.cons_append]
    simp only [splitSlash, if_neg ha, ih r g gs hc' h, List.cons_append]

/-- Splitting inverts joining for slash-free nonempty component lists. -/
theorem splitSlash_joinSlash :
    ∀ comps : List (List Char), comps ≠ [] →
      (∀ c ∈ comps, '/' ∉ c) → splitSlash (joinSlash comps) = comps := by
  intro comps
  induction comps with
  | nil => intro h; exact absurd rfl h
  | cons c cs ih =>
    intro _ hns
    rcases cs with _ | ⟨c2, cs'⟩
    · have h0 : splitSlash ([] : List Char) = [] :: [] := by simp [splitSlash]
      have := splitSlash_append_noslash c [] [] []
        (hns c (List.mem_cons_self c [])) h0
      simpa [joinSlash] using this
    · have hrec : splitSlash (joinSlash (c2 :: cs')) = c2 :: cs' :=
        ih (by simp) (fun x hx => hns x (List.mem_cons_of_mem c hx))
      have hs : splitSlash ('/' :: joinSlash (c2 :: cs')) =
          [] :: (c2 :: cs') := by
        simp [splitSlash, hrec]
      have := splitSlash_append_noslash c ('/' :: joinSlash (c2 :: cs'))
        [] (c2 :: cs') (hns c (List.mem_cons_self c _)) hs
      simpa [joinSlash] using this

/-- Every component of a split is an infix of the input. -/
theorem mem_splitSlash_decomp :
    ∀ (s : List Char) (c : List Char), c ∈ splitSlash s →
      ∃ x y, s = x ++ c ++ y := by
  intro s
  induction s with
  | nil =>
    intro c hc
    simp [splitSlash] at hc
    exact ⟨[], [], by simp [hc]⟩
  | cons a rest ih =>
    intro c hc
    by_cases ha : a = '/'
    · rw [show splitSlash (a :: rest) = [] :: splitSlash rest by
        simp [splitSlash, ha]] at hc
      rcases List.mem_cons.mp hc with rfl | hm
      · exact ⟨[], a :: rest, by simp⟩
      · obtain ⟨x, y, hxy⟩ := ih c hm
        exact ⟨a :: x, y, by simp [hxy]⟩
    · rcases h2 : splitSlash rest with _ | ⟨g', gs'⟩
      · exact absurd h2 (splitSlash_ne_nil rest)
      · rw [show splitSlash (a :: rest) = (a :: g') :: gs' by
          simp [splitSlash, ha, h2]] at hc
        rcases List.mem_cons.mp hc with rfl | hm
        · obtain ⟨y, hy⟩ := splitSlash_head_pre rest g' gs' h2
          exact ⟨[], y, by simp [hy]⟩
        · obtain ⟨x, y, hxy⟩ := ih c (h2 ▸ List.mem_cons_of_mem g' hm)
          exact ⟨a :: x, y, by simp [hxy]⟩

/-! ## Claim C8: occurrence toolkit -/

/-- Occurrence of the literal text as an explicit decomposition. -/
theorem hasBraceSeq_iff (s : List Char) :
    hasBraceSeq s = true ↔ ∃ u v, s = u ++ braceSeq ++ v := by
  constructor
  · induction s with
    | nil => intro h; simp [hasBraceSeq] at h
    | cons c t ih =>
      intro h
      rcases Bool.or_eq_true_iff.mp (by simpa [hasBraceSeq] using h) with
        hh | ht
      · obtain ⟨r, hr⟩ := startsWithBrace_shape hh
        exact ⟨[], r, by simpa using hr⟩
      · obtain ⟨u, v, huv⟩ := ih ht
        exact ⟨c :: u, v, by simp [huv]⟩
  · rintro ⟨u, v, rfl⟩
    induction u with
    | nil =>
      have hs : startsWithBrace ('\x7b' :: '1' :: ',' :: '\x7d' :: v) =
          true := by
        simp [startsWithBrace, braceSeq]
      rw [show ([] : List Char) ++ braceSeq ++ v =
        '\x7b' :: '1' :: ',' :: '\x7d' :: v from by simp [braceSeq]]
      simp [hasBraceSeq, hs]
    | cons c u' ih =>
      have ih2 : hasBraceSeq (u' ++ (braceSeq ++ v)) = true := by
        rw [← List.append_assoc]
        exact ih
      rw [show (c :: u') ++ braceSeq ++ v =
        c :: (u' ++ (braceSeq ++ v)) from by simp]
      simp [hasBraceSeq, ih2]

/-- An occurrence inside a part survives in any surrounding list. -/
theorem hasBraceSeq_of_append (a x b : List Char)
    (h : hasBraceSeq x = true) : hasBraceSeq (a ++ x ++ b) = true := by
  obtain ⟨u, v, rfl⟩ := (hasBraceSeq_iff x).mp h
  exact (hasBraceSeq_iff _).mpr ⟨a ++ u, v ++ b, by simp⟩

/-- No occurrence can straddle a slash separator: a slash-separated
concatenation of occurrence-free parts is occurrence-free. -/
theorem hasBraceSeq_append_slash (a b : List Char)
    (ha : hasBraceSeq a = false) (hb : hasBraceSeq b = false) :
    hasBraceSeq (a ++ '/' :: b) = false := by
  have hseq : hasBraceSeq braceSeq = true :=
    (hasBraceSeq_iff braceSeq).mpr ⟨[], [], by simp⟩
  by_contra hcon
  have htrue : hasBraceSeq (a ++ '/' :: b) = true :=
    Bool.not_eq_false _ ▸ hcon
  obtain ⟨u, v, heq⟩ := (hasBraceSeq_iff _).mp htrue
  rw [List.append_assoc] at heq
  rcases List.append_eq_append_iff.mp heq with ⟨w, hu, hw⟩ | ⟨w, ha2, hw⟩
  · rcases w with _ | ⟨wc, w2⟩
    · simp only [List.nil_append] at hw
      rw [show braceSeq ++ v = '\x7b' :: '1' :: ',' :: '\x7d' :: v from
        by simp [braceSeq]] at hw
      exact absurd (List.cons.inj hw).1 (by decide)
    · obtain ⟨-, hbb⟩ := List.cons.inj hw
      have hbt : hasBraceSeq b = true := by
        rw [hbb]
        have h2 := hasBraceSeq_of_append w2 braceSeq v hseq
        simpa using h2
      simp [hbt] at hb
  · rcases List.append_eq_append_iff.mp hw with ⟨t, hwt, hv⟩ | ⟨t, hbs, htb⟩
    · have hat : hasBraceSeq a = true := by
        rw [ha2, hwt]
        have h2 := hasBraceSeq_of_append u braceSeq t hseq
        simpa using h2
      simp [hat] at ha
    · rcases t with _ | ⟨tc, t2⟩
      · have hw0 : w = braceSeq := by simpa using hbs.symm
        have hat : hasBraceSeq a = true := by
          rw [ha2, hw0]
          have h2 := hasBraceSeq_of_append u braceSeq [] hseq
          simpa using h2
        simp [hat] at ha
      · obtain ⟨htc, -⟩ := List.cons.inj htb
        have hmem : tc ∈ braceSeq := by
          rw [hbs]
          exact List.mem_append.mpr (Or.inr (List.mem_cons_self tc t2))
        rw [← htc] at hmem
        exact absurd hmem (by decide)

/-- Joining occurrence-free components with slashes stays occurrence-free. -/
theorem hasBraceSeq_joinSlash :
    ∀ comps : List (List Char),
      (∀ c ∈ comps, hasBraceSeq c = false) →
      hasBraceSeq (joinSlash comps) = false := by
  intro comps
  induction comps with
  | nil => intro _; rfl
  | cons c cs ih =>
    intro h
    rcases cs with _ | ⟨c2, cs'⟩
    · exact h c (List.mem_cons_self c [])
    · rw [show joinSlash (c :: c2 :: cs') =
        c ++ '/' :: joinSlash (c2 :: cs') from rfl]
      exact hasBraceSeq_append_slash c (joinSlash (c2 :: cs'))
        (h c (List.mem_cons_self c _))
        (ih (fun x hx => h x (List.mem_cons_of_mem c hx)))

/-- The literal text does not start with a slash. -/
theorem startsWithBrace_cons_false (c : Char) (z : List Char)
    (hc : ¬ c = '\x7b') : startsWithBrace (c :: z) = false := by
  simp only [startsWithBrace, List.take_succ_cons, braceSeq]
  simp [hc]

/-- Leading slashes never create an occurrence. -/
theorem hasBraceSeq_replicate_slash (k : Nat) (y : List Char)
    (hy : hasBraceSeq y = false) :
    hasBraceSeq (List.replicate k '/' ++ y) = false := by
  induction k with
  | zero => simpa using hy
  | succ n ih =>
    rw [show List.replicate (n + 1) '/' ++ y =
      '/' :: (List.replicate n '/' ++ y) from by simp [List.replicate_succ]]
    simp [hasBraceSeq, startsWithBrace_cons_false '/' _ (by decide), ih]

/-- Components split out of an occurrence-free list are occurrence-free. -/
theorem hasBraceSeq_mem_splitSlash (s : List Char) (c : List Char)
    (h : hasBraceSeq s = false) (hm : c ∈ splitSlash s) :
    hasBraceSeq c = false := by
  by_contra hcon
  obtain ⟨x, y, rfl⟩ := mem_splitSlash_decomp s c hm
  rw [hasBraceSeq_of_append x c y (Bool.not_eq_false _ ▸ hcon)] at h
  cases h

/-! ## Claim C8: normpath component-loop invariants -/

/-- Every component produced by the loop came from the input. -/
theorem mem_foldl_normStep (ab : Bool) :
    ∀ (comps : List (List Char)) (acc : List (List Char)) (x : List Char),
      x ∈ List.foldl (normStep ab) acc comps → x ∈ acc ∨ x ∈ comps := by
  intro comps
  induction comps with
  | nil => intro acc x h; exact Or.inl h
  | cons c cs ih =>
    intro acc x h
    rcases ih (normStep ab acc c) x h with hm | hm
    · simp only [normStep] at hm
      split_ifs at hm
      · exact Or.inl hm
      · rcases List.mem_append.mp hm with hm2 | hm2
        · exact Or.inl hm2
        · exact Or.inr (by simpa using Or.inl (List.mem_singleton.mp hm2))
      · exact Or.inl ((List.dropLast_sublist acc).subset hm)
    · exact Or.inr (List.mem_cons_of_mem c hm)

/-- The loop never emits an empty or `"."` component. -/
theorem foldl_normStep_good (ab : Bool) :
    ∀ (comps : List (List Char)) (acc : List (List Char)),
      (∀ x ∈ acc, ¬(x = [] ∨ x = ['.'])) →
      ∀ x ∈ List.foldl (normStep ab) acc comps, ¬(x = [] ∨ x = ['.']) := by
  intro comps
  induction comps with
  | nil => intro acc hacc x h; exact hacc x h
  | cons c cs ih =>
    intro acc hacc x h
    refine ih (normStep ab acc c) ?_ x h
    intro y hy
    simp only [normStep] at hy
    split_ifs at hy with h1 h2
    · exact hacc y hy
    · rcases List.mem_append.mp hy with hm | hm
      · exact hacc y hm
      · obtain rfl := List.mem_singleton.mp hm
        exact h1
    · exact hacc y ((List.dropLast_sublist acc).subset hy)

/-- One loop step keeps the `".."` components as a front run (with none at
all in the absolute case). -/
theorem normStep_dots (ab : Bool) (acc : List (List Char)) (c : List Char)
    (h : ∃ m rest, acc = List.replicate m ['.', '.'] ++ rest ∧
      ['.', '.'] ∉ rest ∧ (ab = true → m = 0)) :
    ∃ m rest, normStep ab acc c = List.replicate m ['.', '.'] ++ rest ∧
      ['.', '.'] ∉ rest ∧ (ab = true → m = 0) := by
  obtain ⟨m, rest, rfl, hrest, hm⟩ := h
  simp only [normStep]
  split_ifs with h1 h2
  · exact ⟨m, rest, rfl, hrest, hm⟩
  · by_cases hc : c = ['.', '.']
    · subst hc
      rcases h2 with hne | ⟨hab, hacc⟩ | hlast
      · exact absurd rfl hne
      · have hm0 : m = 0 ∧ rest = [] := by
          constructor
          · by_contra hm0
            have : List.replicate m (['.', '.'] : List Char) ≠ [] := by
              simpa [List.replicate_eq_nil_iff] using hm0
            exact this (List.append_eq_nil.mp hacc).1
          · exact (List.append_eq_nil.mp hacc).2
        obtain ⟨rfl, rfl⟩ := hm0
        exact ⟨1, [], by simp, by simp, fun habt => absurd habt hab⟩
      · have hrnil : rest = [] := by
          by_contra hrne
          rw [List.getLast?_append_of_ne_nil _ hrne] at hlast
          have : (['.', '.'] : List Char) ∈ rest := by
            rcases rest with _ | ⟨r0, rest'⟩
            · exact absurd rfl hrne
            · have hl := List.getLast?_eq_getLast (r0 :: rest') (by simp)
              rw [hl] at hlast
              obtain hlv := Option.some.inj hlast
              rw [← hlv]
              exact List.getLast_mem _
          exact hrest this
        subst hrnil
        rcases m with _ | m'
        · simp at hlast
        · refine ⟨m' + 2, [], ?_, by simp, ?_⟩
          · rw [List.append_nil, List.append_nil, ← List.replicate_succ']
          · intro habt
            exact absurd (hm habt) (by simp)
    · refine ⟨m, rest ++ [c], by simp, ?_, hm⟩
      intro hmem
      rcases List.mem_append.mp hmem with hm2 | hm2
      · exact hrest hm2
      · exact hc (List.mem_singleton.mp hm2).symm
  · rcases rest with _ | ⟨r0, rest'⟩
    · rw [List.append_nil]
      rcases m with _ | m'
      · exact ⟨0, [], by simp, by simp, fun _ => rfl⟩
      · exfalso
        apply h2
        refine Or.inr (Or.inr ?_)
        rw [List.append_nil, List.replicate_succ', List.getLast?_concat]
    · refine ⟨m, (r0 :: rest').dropLast, ?_, ?_, hm⟩
      · rw [List.dropLast_append_of_ne_nil _ (by simp)]
      · intro hmem
        exact hrest ((List.dropLast_sublist (r0 :: rest')).subset hmem)

/-- The loop keeps the `".."` front-run invariant. -/
theorem foldl_normStep_dots (ab : Bool) :
    ∀ (comps : List (List Char)) (acc : List (List Char)),
      (∃ m rest, acc = List.replicate m ['.', '.'] ++ rest ∧
        ['.', '.'] ∉ rest ∧ (ab = true → m = 0)) →
      ∃ m rest, List.foldl (normStep ab) acc comps =
        List.replicate m ['.', '.'] ++ rest ∧
        ['.', '.'] ∉ rest ∧ (ab = true → m = 0) := by
  intro comps
  induction comps with
  | nil => intro acc h; exact h
  | cons c cs ih => intro acc h; exact ih _ (normStep_dots ab acc c h)

/-- Components that are neither empty, `"."` nor `".."` are simply
appended by the loop. -/
theorem foldl_normStep_append_all (ab : Bool) :
    ∀ (rest : List (List Char)) (acc : List (List Char)),
      (∀ c ∈ rest, ¬(c = [] ∨ c = ['.']) ∧ c ≠ ['.', '.']) →
      List.foldl (normStep ab) acc rest = acc ++ rest := by
  intro rest
  induction rest with
  | nil => intro acc _; simp
  | cons c cs ih =>
    intro acc h
    have hc := h c (List.mem_cons_self c cs)
    have hstep : normStep ab acc c = acc ++ [c] := by
      simp only [normStep]
      rw [if_neg hc.1, if_pos (Or.inl hc.2)]
    rw [List.foldl_cons, hstep,
      ih (acc ++ [c]) (fun x hx => h x (List.mem_cons_of_mem c hx))]
    simp

/-- In the relative case a run of `".."` components accumulates verbatim. -/
theorem foldl_normStep_dds :
    ∀ (m j : Nat),
      List.foldl (normStep false) (List.replicate j ['.', '.'])
        (List.replicate m ['.', '.']) = List.replicate (j + m) ['.', '.'] := by
  intro m
  induction m with
  | zero => intro j; simp
  | succ n ih =>
    intro j
    have hstep : normStep false (List.replicate j ['.', '.']) ['.', '.'] =
        List.replicate (j + 1) ['.', '.'] := by
      simp only [normStep]
      rw [if_neg (by simp), if_pos ?_, ← List.replicate_succ']
      rcases j with _ | j'
      · exact Or.inr (Or.inl (by simp))
      · refine Or.inr (Or.inr ?_)
        rw [List.replicate_succ', List.getLast?_concat]
    rw [List.replicate_succ ['.', '.'] n, List.foldl_cons, hstep, ih (j + 1)]
    congr 1
    omega

/-- A component list already in normal form is a fixed point of the loop. -/
theorem reduceComps_fixed (ab : Bool) (comps : List (List Char))
    (hgood : ∀ c ∈ comps, ¬(c = [] ∨ c = ['.']))
    (hdots : ∃ m rest, comps = List.replicate m ['.', '.'] ++ rest ∧
      ['.', '.'] ∉ rest ∧ (ab = true → m = 0)) :
    reduceComps ab comps = comps := by
  obtain ⟨m, rest, rfl, hrest, hm⟩ := hdots
  have hrgood : ∀ c ∈ rest, ¬(c = [] ∨ c = ['.']) ∧ c ≠ ['.', '.'] := by
    intro c hc
    refine ⟨hgood c (List.mem_append.mpr (Or.inr hc)), ?_⟩
    intro he
    exact hrest (he ▸ hc)
  cases hab : ab with
  | true =>
    rw [hm hab]
    simp only [List.replicate, List.nil_append]
    simpa [reduceComps] using foldl_normStep_append_all true rest [] hrgood
  | false =>
    unfold reduceComps
    rw [List.foldl_append]
    have h1 : List.foldl (normStep false) []
        (List.replicate m ['.', '.']) = List.replicate m ['.', '.'] := by
      have h0 := foldl_normStep_dds m 0
      simpa using h0
    rw [h1, foldl_normStep_append_all false rest _ hrgood]

/-! ## Claim C8: collapse computations -/

/-- The collapse scanner copies a slash-free block verbatim. -/
theorem collapseAux_append_noslash :
    ∀ (c b : List Char), '/' ∉ c →
      collapseAux false (c ++ b) = c ++ collapseAux false b := by
  intro c
  induction c with
  | nil => intro b _; simp
  | cons a c' ih =>
    intro b hns
    have ha : ¬ a = '/' := fun e => hns (e ▸ List.mem_cons_self a c')
    rw [List.cons_append]
    simp only [collapseAux, if_neg ha]
    rw [ih b (fun hm => hns (List.mem_cons_of_mem a hm))]
    rfl

/-- The scanner state is irrelevant when the next character is not a
slash. -/
theorem collapseAux_state (y : List Char)
    (hy : y = [] ∨ ∃ a t, y = a :: t ∧ a ≠ '/') :
    collapseAux true y = collapseAux false y := by
  rcases hy with rfl | ⟨a, t, rfl, ha⟩
  · rfl
  · simp [collapseAux, ha]

/-- Joined normal-form components are a fixed point of the collapse
scanner. -/
theorem collapseAux_joinSlash :
    ∀ comps : List (List Char),
      (∀ c ∈ comps, c ≠ [] ∧ '/' ∉ c) →
      collapseAux false (joinSlash comps) = joinSlash comps := by
  intro comps
  induction comps with
  | nil => intro _; rfl
  | cons c cs ih =>
    intro h
    rcases cs with _ | ⟨c2, cs'⟩
    · have h0 := collapseAux_append_noslash c []
        (h c (List.mem_cons_self c [])).2
      simpa [joinSlash, collapseAux] using h0
    · have hrec := ih (fun x hx => h x (List.mem_cons_of_mem c hx))
      have hhead : ∃ a t, joinSlash (c2 :: cs') = a :: t ∧ a ≠ '/' := by
        have hc2 := h c2 (List.mem_cons_of_mem c (List.mem_cons_self c2 cs'))
        rcases c2 with _ | ⟨a, c2'⟩
        · exact absurd rfl hc2.1
        · have ha : a ≠ '/' := fun e => hc2.2 (e ▸ List.mem_cons_self a c2')
          rcases cs' with _ | ⟨c3, cs''⟩
          · exact ⟨a, c2', rfl, ha⟩
          · exact ⟨a, c2' ++ '/' :: joinSlash (c3 :: cs''), rfl, ha⟩
      rw [show joinSlash (c :: c2 :: cs') =
        c ++ '/' :: joinSlash (c2 :: cs') from rfl]
      rw [collapseAux_append_noslash c _ (h c (List.mem_cons_self c _)).2]
      have hslash : collapseAux false ('/' :: joinSlash (c2 :: cs')) =
          '/' :: collapseAux true (joinSlash (c2 :: cs')) := by
        simp [collapseAux]
      rw [hslash, collapseAux_state _ (Or.inr hhead), hrec]

/-- Collapsing one or two root slashes in front of a normal-form body
yields a single root slash. -/
theorem collapseAux_root (k : Nat) (hk : k = 1 ∨ k = 2) (body : List Char)
    (hb : body = [] ∨ ∃ a t, body = a :: t ∧ a ≠ '/')
    (hfix : collapseAux false body = body) :
    collapseAux false (List.replicate k '/' ++ body) = '/' :: body := by
  rcases hk with rfl | rfl
  · rw [show List.replicate 1 '/' ++ body = '/' :: body from by simp]
    have hstep : collapseAux false ('/' :: body) =
        '/' :: collapseAux true body := by
      simp [collapseAux]
    rw [hstep, collapseAux_state body hb, hfix]
  · rw [show List.replicate 2 '/' ++ body = '/' :: '/' :: body from by
      simp [List.replicate]]
    have hstep : collapseAux false ('/' :: '/' :: body) =
        '/' :: collapseAux true body := by
      simp [collapseAux]
    rw [hstep, collapseAux_state body hb, hfix]

/-! ## Claim C8: assembling the fixed point -/

/-- There are only three possible leading-slash counts. -/
theorem initialSlashes_cases (s : List Char) :
    initialSlashes s = 0 ∨ initialSlashes s = 1 ∨ initialSlashes s = 2 := by
  unfold initialSlashes
  split
  · exact Or.inr (Or.inl rfl)
  · exact Or.inr (Or.inr rfl)
  · exact Or.inr (Or.inl rfl)
  · exact Or.inl rfl

/-- A list headed by a non-slash character has no leading slashes. -/
theorem initialSlashes_head_ne (a : Char) (t : List Char) (ha : a ≠ '/') :
    initialSlashes (a :: t) = 0 := by
  unfold initialSlashes
  split
  · rename_i heq
    exact absurd (List.cons.inj heq).1 ha
  · rename_i heq
    exact absurd (List.cons.inj heq).1 ha
  · rename_i heq
    exact absurd (List.cons.inj heq).1 ha
  · rfl

/-- A single leading slash followed by a non-slash character counts one. -/
theorem initialSlashes_one (a : Char) (t : List Char) (ha : a ≠ '/') :
    initialSlashes ('/' :: a :: t) = 1 := by
  unfold initialSlashes
  split
  · rfl
  · rename_i heq
    exact absurd (List.cons.inj (List.cons.inj heq).2).1 ha
  · rfl
  · rename_i h1 h2 h3
    exact absurd rfl (h3 (a :: t))

/-- Joined nonempty slash-free components start with a non-slash
character. -/
theorem joinSlash_head (c0 : List Char) (cs0 : List (List Char))
    (h1 : c0 ≠ []) (h2 : '/' ∉ c0) :
    ∃ a t, joinSlash (c0 :: cs0) = a :: t ∧ a ≠ '/' := by
  rcases c0 with _ | ⟨a, c0'⟩
  · exact absurd rfl h1
  · have ha : a ≠ '/' := fun e => h2 (e ▸ List.mem_cons_self a c0')
    rcases cs0 with _ | ⟨c2, cs''⟩
    · exact ⟨a, c0', rfl, ha⟩
    · exact ⟨a, c0' ++ '/' :: joinSlash (c2 :: cs''), rfl, ha⟩

/-- Splitting after a leading slash prepends an empty component. -/
theorem splitSlash_cons_slash (y : List Char) :
    splitSlash ('/' :: y) = [] :: splitSlash y := by
  simp [splitSlash]

/-- The loop ignores a leading empty component. -/
theorem reduceComps_cons_nil (ab : Bool) (l : List (List Char)) :
    reduceComps ab ([] :: l) = reduceComps ab l := by
  simp [reduceComps, List.foldl_cons, normStep]

/-- Unfolded form of the lexical normalizer on a nonempty input. -/
theorem normpathL_eq (s : List Char) (hs : s ≠ []) :
    normpathL s =
      (if List.replicate (initialSlashes s) '/' ++
          joinSlash (reduceComps (initialSlashes s != 0) (splitSlash s)) = []
        then ['.']
        else List.replicate (initialSlashes s) '/' ++
          joinSlash (reduceComps (initialSlashes s != 0) (splitSlash s))) := by
  simp only [normpathL, if_neg hs]

/-- The collapsed lexical normal form is occurrence-free (when the input
was), lexically normal, and collapse-stable. -/
theorem normal_form_fixed (k : Nat) (hk : k = 0 ∨ k = 1 ∨ k = 2)
    (comps : List (List Char))
    (hgood : ∀ c ∈ comps, ¬(c = [] ∨ c = ['.']))
    (hns : ∀ c ∈ comps, '/' ∉ c)
    (hnb : ∀ c ∈ comps, hasBraceSeq c = false)
    (hdots : ∃ m rest, comps = List.replicate m ['.', '.'] ++ rest ∧
      ['.', '.'] ∉ rest ∧ ((k != 0) = true → m = 0)) :
    ∀ x, x = collapseAux false
        (if List.replicate k '/' ++ joinSlash comps = [] then ['.']
         else List.replicate k '/' ++ joinSlash comps) →
      hasBraceSeq x = false ∧ normpathL x = x ∧ collapseAux false x = x := by
  intro x hx
  rcases comps with _ | ⟨c0, cs0⟩
  · rcases hk with rfl | rfl | rfl
    · subst hx
      exact ⟨by decide, by decide, by decide⟩
    · subst hx
      exact ⟨by decide, by decide, by decide⟩
    · subst hx
      exact ⟨by decide, by decide, by decide⟩
  · have hc0 : c0 ≠ [] := by
      intro he
      exact hgood c0 (List.mem_cons_self c0 cs0) (Or.inl he)
    obtain ⟨a, t, hbt, ha⟩ :=
      joinSlash_head c0 cs0 hc0 (hns c0 (List.mem_cons_self c0 cs0))
    have hbody_ne : joinSlash (c0 :: cs0) ≠ [] := by
      rw [hbt]
      simp
    have hout_ne : List.replicate k '/' ++ joinSlash (c0 :: cs0) ≠ [] := by
      simp [hbody_ne]
    rw [if_neg hout_ne] at hx
    have hjgood : ∀ c ∈ c0 :: cs0, c ≠ [] ∧ '/' ∉ c := by
      intro c hc
      exact ⟨fun he => hgood c hc (Or.inl he), hns c hc⟩
    have hjfix : collapseAux false (joinSlash (c0 :: cs0)) =
        joinSlash (c0 :: cs0) := collapseAux_joinSlash _ hjgood
    have hsplit : splitSlash (joinSlash (c0 :: cs0)) = c0 :: cs0 :=
      splitSlash_joinSlash _ (by simp) hns
    have hjnb : hasBraceSeq (joinSlash (c0 :: cs0)) = false :=
      hasBraceSeq_joinSlash _ hnb
    rcases hk with rfl | hk12
    · -- relative: x is the bare joined body
      have hx0 : x = joinSlash (c0 :: cs0) := by
        rw [hx]
        simp only [List.replicate, List.nil_append]
        exact hjfix
      refine ⟨hx0 ▸ hjnb, ?_, hx0 ▸ hjfix⟩
      rw [hx0, normpathL_eq _ hbody_ne]
      rw [show initialSlashes (joinSlash (c0 :: cs0)) = 0 from by
        rw [hbt]; exact initialSlashes_head_ne a t ha]
      rw [hsplit]
      have hred : reduceComps ((0 : Nat) != 0) (c0 :: cs0) = c0 :: cs0 := by
        apply reduceComps_fixed _ _ hgood
        obtain ⟨m, rest, he, hrest, hm⟩ := hdots
        exact ⟨m, rest, he, hrest, fun hcon => by cases hcon⟩
      rw [hred]
      simp [hbody_ne]
    · -- absolute: x is a single slash followed by the joined body
      have hx1 : x = '/' :: joinSlash (c0 :: cs0) := by
        rw [hx]
        exact collapseAux_root k hk12 _ (Or.inr ⟨a, t, hbt, ha⟩) hjfix
      have hxnb : hasBraceSeq x = false := by
        rw [hx1]
        have := hasBraceSeq_replicate_slash 1 _ hjnb
        simpa using this
      have hxfix : collapseAux false x = x := by
        rw [hx1]
        have := collapseAux_root 1 (Or.inl rfl) _ (Or.inr ⟨a, t, hbt, ha⟩)
          hjfix
        simpa using this
      refine ⟨hxnb, ?_, hxfix⟩
      rw [hx1, normpathL_eq _ (by simp)]
      rw [show initialSlashes ('/' :: joinSlash (c0 :: cs0)) = 1 from by
        rw [hbt]; exact initialSlashes_one a t ha]
      rw [splitSlash_cons_slash, hsplit, reduceComps_cons_nil]
      have hred : reduceComps ((1 : Nat) != 0) (c0 :: cs0) = c0 :: cs0 := by
        apply reduceComps_fixed _ _ hgood
        obtain ⟨m, rest, he, hrest, hm⟩ := hdots
        refine ⟨m, rest, he, hrest, fun _ => hm ?_⟩
        rcases hk12 with rfl | rfl <;> rfl
      rw [hred]
      have : List.replicate 1 '/' ++ joinSlash (c0 :: cs0) =
          '/' :: joinSlash (c0 :: cs0) := by simp
      rw [this]
      simp

/-- Collapsing the lexical normal form of an occurrence-free input yields a
list that is occurrence-free, lexically normal and collapse-stable. -/
theorem c8_core (s : List Char) (h : hasBraceSeq s = false) :
    hasBraceSeq (collapseAux false (normpathL s)) = false ∧
    normpathL (collapseAux false (normpathL s)) =
      collapseAux false (normpathL s) ∧
    collapseAux false (collapseAux false (normpathL s)) =
      collapseAux false (normpathL s) := by
  by_cases hs : s = []
  · subst hs
    exact ⟨by decide, by decide, by decide⟩
  · have hsub : ∀ c ∈ reduceComps (initialSlashes s != 0) (splitSlash s),
        c ∈ splitSlash s := by
      intro c hc
      rcases mem_foldl_normStep _ (splitSlash s) [] c hc with hm | hm
      · exact absurd hm (List.not_mem_nil c)
      · exact hm
    have hgood : ∀ c ∈ reduceComps (initialSlashes s != 0) (splitSlash s),
        ¬(c = [] ∨ c = ['.']) :=
      foldl_normStep_good _ (splitSlash s) []
        (fun x hx => absurd hx (List.not_mem_nil x))
    have hns : ∀ c ∈ reduceComps (initialSlashes s != 0) (splitSlash s),
        '/' ∉ c := fun c hc => mem_splitSlash_no_slash s c (hsub c hc)
    have hnb : ∀ c ∈ reduceComps (initialSlashes s != 0) (splitSlash s),
        hasBraceSeq c = false :=
      fun c hc => hasBraceSeq_mem_splitSlash s c h (hsub c hc)
    have hdots := foldl_normStep_dots (initialSlashes s != 0) (splitSlash s)
      [] ⟨0, [], rfl, by simp, fun _ => rfl⟩
    have hmain := normal_form_fixed (initialSlashes s)
      (initialSlashes_cases s) _ hgood hns hnb hdots
      (collapseAux false (normpathL s)) (by rw [normpathL_eq s hs])
    exact hmain

/-- C8 (amended): `normalizePath` is idempotent on every path string that
does not contain the literal text `\x7b1,\x7d` (on strings containing it
the backslash substitution can manufacture a fresh run of slashes, which a
second application collapses; see the counterexample). -/
theorem c8_idempotent_without_brace_text (p : String)
    (h : hasBraceSeq p.data = false) :
    normalize_path (normalize_path p) = normalize_path p := by
  obtain ⟨hnb, hnorm, hcol⟩ := c8_core p.data h
  have h1 : normalize_path p =
      String.mk (collapseAux false (normpathL p.data)) := by
    simp only [normalize_path, collapseSlash]
    rw [braceSub_eq_self hnb]
  rw [h1]
  simp only [normalize_path, collapseSlash]
  rw [hnorm, hcol, braceSub_eq_self hnb]

/-- C8, witness: a concrete brace-free path on which the amended
idempotence law evaluates. -/
theorem c8_witness :
    hasBraceSeq ("/x//y\\z" : String).data = false ∧
    normalize_path (normalize_path "/x//y\\z") = normalize_path "/x//y\\z" :=
  ⟨by decide, c8_idempotent_without_brace_text "/x//y\\z" (by decide)⟩
